import Mathlib

/-!
A shallow embedding of `earley.py`, a chart-based Earley recognizer, together
with proofs of the specification claims about it.

Conventions of the embedding:
* Python strings are `String`; the terminal set is a `List String` queried by
  membership; Python integers indexing the chart are `Nat`.
* `Rule` objects in the source have no `__eq__`, so Python compares them by
  object identity.  Distinct `Rule(...)` constructor calls yield distinct
  objects; we model identity by tagging each rule with the index of the
  constructor call that created it (`tag`).
* `EarleyItem.__eq__` compares only `(rule, start, dot)`; `prev` is excluded.
* Fallible operations (Python `KeyError` on a dict lookup, `IndexError` on a
  list index) are modelled with `Except PyErr`.
* The source iterates Python lists that grow while being iterated (both the
  per-position worklist in `earley` and, when `item.start == i`, the lazy
  `filter`/`map` pipeline consumed by `ItemSet.extend` inside `complete`).
  Both are modelled as cursor-based loops.  The loops are given an explicit
  step budget (structural recursion on a `Nat`): the budget used by the
  embedding is the size of the finite key space plus one, and the
  deduplicating `ItemSet.append` guarantees a position never holds more items
  than there are keys, so the budget is provably never the reason a loop
  stops (the invariant lemmas below establish this).
-/

/-- A grammar production.  `tag` models Python object identity of the
`Rule` instance (the source class defines no `__eq__`, so two structurally
identical rules built by distinct constructor calls are *not* equal). -/
structure Rule where
  tag : Nat
  lhs : String
  rhs : List String
deriving DecidableEq, Repr

/-- `EarleyItem(rule, start, dot, prev)`: a dotted production instance with
its origin position and the back-pointer list `prev`. -/
inductive EarleyItem : Type where
  | mk (rule : Rule) (start : Nat) (dot : Nat) (prev : List EarleyItem)

/-- Field accessor for `rule`. -/
def EarleyItem.rule : EarleyItem → Rule
  | .mk r _ _ _ => r

/-- Field accessor for `start`. -/
def EarleyItem.start : EarleyItem → Nat
  | .mk _ s _ _ => s

/-- Field accessor for `dot`. -/
def EarleyItem.dot : EarleyItem → Nat
  | .mk _ _ d _ => d

/-- Field accessor for `prev`. -/
def EarleyItem.prev : EarleyItem → List EarleyItem
  | .mk _ _ _ p => p

/-- `EarleyItem.__eq__`: equality on `(rule, start, dot)` only; the
back-pointer list is deliberately excluded. -/
def itemEq (a b : EarleyItem) : Bool :=
  a.rule == b.rule && a.start == b.start && a.dot == b.dot

/-- `ItemSet.append`: insert `v` only when no element with the same
`(rule, start, dot)` is present (Python `list.__contains__` uses
`EarleyItem.__eq__`). -/
def ItemSet.append (s : List EarleyItem) (v : EarleyItem) : List EarleyItem :=
  if s.any (fun x => itemEq x v) then s else s ++ [v]

/-- The *call* view of `ItemSet.append`: the Python method body has no
`return` statement, so every call evaluates to `None`; we model the returned
value as `(none : Option Bool)` (a returned boolean flag would be `some b`). -/
def ItemSet.appendCall (s : List EarleyItem) (v : EarleyItem) :
    List EarleyItem × Option Bool :=
  (ItemSet.append s v, none)

/-- `ItemSet.extend`: `append` each value in order. -/
def ItemSet.extend (s : List EarleyItem) (vs : List EarleyItem) : List EarleyItem :=
  vs.foldl ItemSet.append s

/-- The `EarleyState` enum. -/
inductive EarleyState : Type where
  | Complete
  | Terminal
  | NonTerminal
deriving DecidableEq, Repr

/-- `next_symb(earley_item, terminals)`: classify the symbol after the dot.
Python returns `(state, symb)` with `symb = None` when the dot is at the end
of the right-hand side. -/
def next_symb (earley_item : EarleyItem) (terminals : List String) :
    EarleyState × Option String :=
  if h : earley_item.dot < earley_item.rule.rhs.length then
    let symb := earley_item.rule.rhs.get ⟨earley_item.dot, h⟩
    (if terminals.contains symb then EarleyState.Terminal else EarleyState.NonTerminal,
     some symb)
  else
    (EarleyState.Complete, none)

/-- The grammar: an insertion-ordered mapping from left-hand symbol to the
rules with that left-hand side, plus the start symbol.  (Python uses a
`dict`, which preserves insertion order.) -/
structure Grammar where
  rules : List (String × List Rule)
  start_rule : String

/-- One step of `Grammar.__init__`'s grouping loop: file `rule` under its
left-hand side, appending to an existing group or creating a new one. -/
def insertRule (m : List (String × List Rule)) (r : Rule) : List (String × List Rule) :=
  if m.any (fun p => p.1 == r.lhs) then
    m.map (fun p => if p.1 == r.lhs then (p.1, p.2 ++ [r]) else p)
  else
    m ++ [(r.lhs, [r])]

/-- `Grammar.__init__`: group the rule list by left-hand symbol.  No
validation of any kind is performed; construction always succeeds. -/
def Grammar.build (rules : List Rule) (start_rule : String) : Grammar :=
  ⟨rules.foldl insertRule [], start_rule⟩

/-- Tag each raw `(lhs, rhs)` pair with the index of its `Rule(...)`
constructor call, modelling Python object identity. -/
def tagRulesFrom : Nat → List (String × List String) → List Rule
  | _, [] => []
  | k, (l, r) :: rest => ⟨k, l, r⟩ :: tagRulesFrom (k + 1) rest

/-- Build a `Grammar` from raw `(lhs, rhs)` pairs, as `__main__` does. -/
def mkGrammar (raw : List (String × List String)) (start : String) : Grammar :=
  Grammar.build (tagRulesFrom 0 raw) start

/-- `grammar.rules[symb]`: dict lookup; `none` models a `KeyError`. -/
def Grammar.lookup (g : Grammar) (s : String) : Option (List Rule) :=
  (g.rules.find? (fun p => p.1 == s)).map (fun p => p.2)

/-- All rules stored in the grammar (the concatenation of the dict values). -/
def allRules (g : Grammar) : List Rule :=
  (g.rules.map (fun p => p.2)).flatten

/-- Python exceptions the engine can raise: `KeyError` from a dict lookup
(`grammar.rules[symb]`), `IndexError` from a chart index
(`earley_item_set[j]`). -/
inductive PyErr : Type where
  | keyError (s : String)
  | indexError
deriving DecidableEq, Repr

/-- The chart: one item collection per position. -/
abbrev Chart := List (List EarleyItem)

/-- `predict(grammar, item_set, symb, i)`: one new dot-0 item at origin `i`
per rule of `symb`; `none` models the `KeyError` raised by
`grammar.rules[symb]` before anything is inserted. -/
def predict (g : Grammar) (item_set : List EarleyItem) (symb : String) (i : Nat) :
    Option (List EarleyItem) :=
  (g.lookup symb).map
    (fun rs => ItemSet.extend item_set (rs.map (fun rule => EarleyItem.mk rule i 0 [])))

/-- `scan(earley_item_set, item, symb, word, i)`: on a terminal match, append
the advanced item (back-pointers unchanged) to position `i+1`. -/
def scan (chart : Chart) (item : EarleyItem) (symb word : String) (i : Nat) :
    Except PyErr Chart :=
  if symb == word then
    match chart.get? (i + 1) with
    | none => .error PyErr.indexError
    | some s =>
        .ok (chart.set (i + 1)
          (ItemSet.append s (EarleyItem.mk item.rule item.start (item.dot + 1) item.prev)))
  else
    .ok chart

/-- The item `complete` inserts for a matching `old` item: dot advanced by
one, the finished item appended to the back-pointers. -/
def advanceItem (old fin : EarleyItem) : EarleyItem :=
  EarleyItem.mk old.rule old.start (old.dot + 1) (old.prev ++ [fin])

/-- Remaining work of the lazy self-extension loop in `complete`: the summed
weights of the entries at or after the cursor (each processed entry costs at
least one, and an appended advanced item weighs one less than its source). -/
def itemWeight (x : EarleyItem) : Nat :=
  x.rule.rhs.length - x.dot + 1

/-- Total weight of the suffix of `s` starting at cursor `c`. -/
def suffWeight (s : List EarleyItem) (c : Nat) : Nat :=
  ((s.drop c).map itemWeight).sum

/-- The aliased case of `complete`: when `item.start == i`, the Python
`filter`/`map` pipeline consumed by `ItemSet.extend` iterates the very list
being appended to, so appended items are themselves examined.  Modelled as a
cursor loop; the budget is spent one unit per examined entry and
`suffWeight s c` bounds the work left, so a budget above it never runs out. -/
def completeSelfF (lhs : String) (fin : EarleyItem) (t : List String) :
    Nat → List EarleyItem → Nat → List EarleyItem
  | 0, s, _ => s
  | fuel + 1, s, c =>
    match s.get? c with
    | none => s
    | some old =>
        let s' := if (next_symb old t).2 == some lhs
                  then ItemSet.append s (advanceItem old fin)
                  else s
        completeSelfF lhs fin t fuel s' (c + 1)

/-- `complete(earley_item_set, item_set, item, terminals)`: advance every
item of position `item.start` whose symbol-after-dot is the finished item's
left-hand symbol, inserting the results into the destination position `dst`.
When the source and destination positions coincide (`item.start == dst`) the
Python pipeline is lazy over the growing list (`completeSelfF`); otherwise
the source list is unaffected by the insertions and a snapshot is exact. -/
def complete (chart : Chart) (dst : Nat) (item : EarleyItem) (t : List String) :
    Except PyErr Chart :=
  match chart.get? item.start with
  | none => .error PyErr.indexError
  | some src =>
    if item.start = dst then
      .ok (chart.set dst (completeSelfF item.rule.lhs item t (suffWeight src 0 + 1) src 0))
    else
      .ok (chart.set dst
        (ItemSet.extend (chart.getD dst [])
          ((src.filter (fun old => (next_symb old t).2 == some item.rule.lhs)).map
            (fun old => advanceItem old item))))

/-- Dispatch for one worklist entry of the main loop (the body of
`for item in item_set` at input position `i`, scanning against `word`). -/
def stepItem (g : Grammar) (t : List String) (word : String) (i : Nat)
    (chart : Chart) (item : EarleyItem) : Except PyErr Chart :=
  match next_symb item t with
  | (EarleyState.Complete, _) => complete chart i item t
  | (EarleyState.NonTerminal, some symb) =>
      match predict g (chart.getD i []) symb i with
      | none => .error (PyErr.keyError symb)
      | some s => .ok (chart.set i s)
  | (EarleyState.Terminal, some symb) => scan chart item symb word i
  | (_, none) => .ok chart

/-- The worklist over position `i` (Python's `for item in item_set`, a list
iterator that also visits entries appended during the iteration). -/
def posLoopF (g : Grammar) (t : List String) (word : String) (i : Nat) :
    Nat → Chart → Nat → Except PyErr Chart
  | 0, chart, _ => .ok chart
  | fuel + 1, chart, c =>
    match (chart.getD i []).get? c with
    | none => .ok chart
    | some item =>
      match stepItem g t word i chart item with
      | .error e => .error e
      | .ok chart' => posLoopF g t word i fuel chart' (c + 1)

/-- The outer loop `for i, (word, item_set) in enumerate(zip(sentence,
earley_item_set))`: one position per input word (`zip` stops at the shorter
sequence, hence the length guard). -/
def mainLoopF (g : Grammar) (t : List String) (K : Nat) :
    List String → Nat → Chart → Except PyErr Chart
  | [], _, chart => .ok chart
  | word :: ws, i, chart =>
    if i < chart.length then
      match posLoopF g t word i K chart 0 with
      | .error e => .error e
      | .ok chart' => mainLoopF g t K ws (i + 1) chart'
    else
      .ok chart

/-- Dispatch for one entry of the final sweep: only `Complete` items act;
nothing is predicted and nothing is scanned. -/
def finalStep (t : List String) (last : Nat) (chart : Chart) (item : EarleyItem) :
    Except PyErr Chart :=
  match next_symb item t with
  | (EarleyState.Complete, _) => complete chart last item t
  | _ => .ok chart

/-- The completion-only sweep over the final position (`for item in
earley_item_set[-1]`, again a live list iterator). -/
def finalLoopF (t : List String) (last : Nat) :
    Nat → Chart → Nat → Except PyErr Chart
  | 0, chart, _ => .ok chart
  | fuel + 1, chart, c =>
    match (chart.getD last []).get? c with
    | none => .ok chart
    | some item =>
      match finalStep t last chart item with
      | .error e => .error e
      | .ok chart' => finalLoopF t last fuel chart' (c + 1)

/-- Every key `(rule, start, dot)` an item of the chart can carry: the rule
is one of the grammar's, the origin is a chart position, the dot is within
the rule's right-hand side.  Its size bounds every position's length. -/
def keyUniverse (g : Grammar) (n : Nat) : List (Rule × Nat × Nat) :=
  (allRules g).flatMap
    (fun r => (List.range (n + 1)).flatMap
      (fun s => (List.range (r.rhs.length + 1)).map (fun d => (r, s, d))))

/-- The step budget handed to the worklist loops: one more than the size of
the key space, hence strictly more than any position's length can reach. -/
def chartCap (g : Grammar) (n : Nat) : Nat :=
  (keyUniverse g n).length + 1

/-- `earley(grammar, terminals, sentence)`: build the initial chart (the
start rules' dot-0 items at position 0, one empty collection per input
word), run the main loop, then the completion-only final sweep.  The lookup
`grammar.rules[grammar.start_rule]` can raise `KeyError` here. -/
def earley (g : Grammar) (t : List String) (sentence : List String) :
    Except PyErr Chart :=
  match g.lookup g.start_rule with
  | none => .error (PyErr.keyError g.start_rule)
  | some startRules =>
    let chart0 : Chart :=
      (startRules.map (fun rule => EarleyItem.mk rule 0 0 [])) ::
        sentence.map (fun _ => [])
    let K := chartCap g sentence.length
    match mainLoopF g t K sentence 0 chart0 with
    | .error e => .error e
    | .ok chart1 => finalLoopF t (chart1.length - 1) K chart1 0

/-- The acceptance test of `__main__`: an item of the final position with
the dot at the end of its rule, origin 0, and the start symbol on the left. -/
def isAccepting (start : String) (item : EarleyItem) : Bool :=
  item.dot == item.rule.rhs.length && item.start == 0 && item.rule.lhs == start

/-- The caller's acceptance check: fail when the chart's length is not
`len(sentence) + 1`, otherwise take the first accepting item of the final
position (`for ... break / else` in `__main__`). -/
def acceptCheck (chart : Chart) (n : Nat) (start : String) : Option EarleyItem :=
  if chart.length == n + 1 then
    (chart.getD (chart.length - 1) []).find? (isAccepting start)
  else
    none

/-- `to_lr(item)`: concatenate the extractions of the back-pointers in order
and append the item's own rule (bottom-up, post-order). -/
def to_lr (item : EarleyItem) : List Rule :=
  match item with
  | .mk rule _ _ prev =>
      ((prev.attach.map (fun x => to_lr x.1)).flatten) ++ [rule]
termination_by sizeOf item
decreasing_by
  have hx := List.sizeOf_lt_of_mem x.2
  simp only [EarleyItem.mk.sizeOf_spec]
  omega

/-- The full pipeline of `__main__`: build the chart, run the acceptance
check, and extract the reversed bottom-up rule sequence of the first
accepting item (`reversed(to_lr(last))`). -/
def parse (raw : List (String × List String)) (start : String)
    (t : List String) (sentence : List String) :
    Except PyErr (Option (List Rule)) :=
  match earley (mkGrammar raw start) t sentence with
  | .error e => .error e
  | .ok chart =>
      .ok ((acceptCheck chart sentence.length start).map (fun it => (to_lr it).reverse))

/-! ### Invariant vocabulary -/

/-- The de-duplication key of an item: exactly the fields `EarleyItem.__eq__`
compares. -/
def EarleyItem.key (it : EarleyItem) : Rule × Nat × Nat :=
  (it.rule, it.start, it.dot)

/-- The keys of a collection, in order. -/
def keysOf (s : List EarleyItem) : List (Rule × Nat × Nat) :=
  s.map EarleyItem.key

/-- The item collection of chart position `j` (empty beyond the chart). -/
def posGet (chart : Chart) (j : Nat) : List EarleyItem :=
  chart.getD j []

/-- Well-formedness of a single item relative to its position `j`: its rule
is one of the grammar's, its origin is at most `j`, and its dot is within
its rule's right-hand side. -/
def ItemOk (g : Grammar) (j : Nat) (it : EarleyItem) : Prop :=
  it.rule ∈ allRules g ∧ it.start ≤ j ∧ it.dot ≤ it.rule.rhs.length

instance (g : Grammar) (j : Nat) (it : EarleyItem) : Decidable (ItemOk g j it) := by
  unfold ItemOk; infer_instance

/-- Well-formedness of a position's collection: all items are well formed
and no two share a key. -/
def PosOk (g : Grammar) (j : Nat) (s : List EarleyItem) : Prop :=
  (∀ it ∈ s, ItemOk g j it) ∧ (keysOf s).Nodup

instance (g : Grammar) (j : Nat) (s : List EarleyItem) : Decidable (PosOk g j s) := by
  unfold PosOk; infer_instance

/-- The chart invariant for an `n`-word sentence: `n + 1` positions, each
well formed. -/
def ChartInv (g : Grammar) (n : Nat) (chart : Chart) : Prop :=
  chart.length = n + 1 ∧ ∀ j < chart.length, PosOk g j (posGet chart j)

instance (g : Grammar) (n : Nat) (chart : Chart) : Decidable (ChartInv g n chart) := by
  unfold ChartInv; infer_instance

/-- The observable effect of having completed a finished item `x` of the
final position: every item of position `x.start` (a position strictly below
the final one, hence untouched by the sweep) that expects `x`'s left-hand
symbol has its advanced key present in the final position. -/
def completedAt (t : List String) (chart : Chart) (last : Nat) (x : EarleyItem) : Prop :=
  x.rule.rhs.length ≤ x.dot → x.start < last →
  ∀ old ∈ posGet chart x.start, (next_symb old t).2 = some x.rule.lhs →
  ∃ y ∈ posGet chart last, itemEq y (advanceItem old x) = true

/-- Shape of every item the final sweep can add: an existing item advanced
over a finished item's left-hand symbol — never a prediction (`dot = 0`) and
never a scan product. -/
def sweepAddition (t : List String) (chart : Chart) (last : Nat) (y : EarleyItem) : Prop :=
  ∃ old fin, fin ∈ posGet chart last ∧ fin.rule.rhs.length ≤ fin.dot ∧
    old ∈ posGet chart fin.start ∧ (next_symb old t).2 = some fin.rule.lhs ∧
    y = advanceItem old fin

/-- Invariant of the grouping fold: every stored rule was created by one of
the first `k` constructor calls, and no group holds the same rule twice. -/
def GroupInv (k : Nat) (m : List (String × List Rule)) : Prop :=
  ∀ p ∈ m, (∀ r ∈ p.2, r.tag < k) ∧ (p.2.map Rule.tag).Nodup

/-- Examples used to instantiate theorems at concrete inputs. -/
def exRule : Rule := ⟨0, "a", ["b"]⟩

/-- The start item of the example grammar `a -> b`. -/
def exItA : EarleyItem := EarleyItem.mk exRule 0 0 []

/-- The scanned item of the example grammar `a -> b` on input `b`. -/
def exItB : EarleyItem := EarleyItem.mk exRule 0 1 []

/-- An item expecting the non-terminal `A` after its dot. -/
def exOld : EarleyItem := EarleyItem.mk ⟨0, "S", ["A"]⟩ 0 0 []

/-- A finished item with left-hand symbol `A`. -/
def exFin : EarleyItem := EarleyItem.mk ⟨1, "A", ["a"]⟩ 0 1 []

/-- The example grammar `S -> A, A -> a`. -/
def exG5 : Grammar := mkGrammar [("S", ["A"]), ("A", ["a"])] "S"

/-- A chart for `exG5` on a one-word input, as it stands before the final
completion sweep: the finished `A -> a •` item at position 1 has not yet
advanced the `S -> • A` item of position 0. -/
def exChart5 : Chart :=
  [[EarleyItem.mk ⟨0, "S", ["A"]⟩ 0 0 [], EarleyItem.mk ⟨1, "A", ["a"]⟩ 0 0 []],
   [EarleyItem.mk ⟨1, "A", ["a"]⟩ 0 1 []]]

/-! ### Item-collection lemmas -/

@[simp] theorem EarleyItem.rule_mk (r : Rule) (s d : Nat) (p : List EarleyItem) :
    (EarleyItem.mk r s d p).rule = r := rfl

@[simp] theorem EarleyItem.start_mk (r : Rule) (s d : Nat) (p : List EarleyItem) :
    (EarleyItem.mk r s d p).start = s := rfl

@[simp] theorem EarleyItem.dot_mk (r : Rule) (s d : Nat) (p : List EarleyItem) :
    (EarleyItem.mk r s d p).dot = d := rfl

@[simp] theorem EarleyItem.prev_mk (r : Rule) (s d : Nat) (p : List EarleyItem) :
    (EarleyItem.mk r s d p).prev = p := rfl


theorem itemEq_refl (a : EarleyItem) : itemEq a a = true := by
  simp [itemEq]

theorem itemEq_iff_key {a b : EarleyItem} : itemEq a b = true ↔ a.key = b.key := by
  simp [itemEq, EarleyItem.key, Prod.ext_iff, and_assoc]

theorem append_extends (s : List EarleyItem) (v : EarleyItem) :
    s <+: ItemSet.append s v := by
  unfold ItemSet.append
  split
  · exact ⟨[], by simp⟩
  · exact ⟨[v], rfl⟩

theorem extend_extends (s : List EarleyItem) (vs : List EarleyItem) :
    s <+: ItemSet.extend s vs := by
  induction vs generalizing s with
  | nil => exact ⟨[], by simp [ItemSet.extend]⟩
  | cons v vs ih =>
      exact (append_extends s v).trans (ih (ItemSet.append s v))

theorem append_mem {s : List EarleyItem} {v x : EarleyItem}
    (hx : x ∈ ItemSet.append s v) : x ∈ s ∨ x = v := by
  unfold ItemSet.append at hx
  split at hx
  · exact Or.inl hx
  · rcases List.mem_append.mp hx with h | h
    · exact Or.inl h
    · exact Or.inr (by simpa using h)

theorem keyMem_mono {s s' : List EarleyItem} {v : EarleyItem}
    (h : ∃ y ∈ s, itemEq y v = true) (hp : s <+: s') :
    ∃ y ∈ s', itemEq y v = true := by
  rcases h with ⟨y, hy, he⟩
  exact ⟨y, hp.subset hy, he⟩

theorem append_keyMem (s : List EarleyItem) (v : EarleyItem) :
    ∃ y ∈ ItemSet.append s v, itemEq y v = true := by
  unfold ItemSet.append
  split
  · next h => simpa using List.any_eq_true.mp h
  · exact ⟨v, by simp, itemEq_refl v⟩

theorem extend_keyMem : ∀ (vs s : List EarleyItem) (v : EarleyItem), v ∈ vs →
    ∃ y ∈ ItemSet.extend s vs, itemEq y v = true := by
  intro vs
  induction vs with
  | nil => intro s v hv; cases hv
  | cons w ws ih =>
      intro s v hv
      rcases List.mem_cons.mp hv with rfl | hv'
      · exact keyMem_mono (append_keyMem s v) (extend_extends _ ws)
      · exact ih (ItemSet.append s w) v hv'

theorem extend_sound : ∀ (vs s : List EarleyItem) (y : EarleyItem),
    y ∈ ItemSet.extend s vs → y ∈ s ∨ y ∈ vs := by
  intro vs
  induction vs with
  | nil => intro s y hy; exact Or.inl hy
  | cons w ws ih =>
      intro s y hy
      rcases ih (ItemSet.append s w) y hy with h | h
      · rcases append_mem h with h' | h'
        · exact Or.inl h'
        · exact Or.inr (by simp [h'])
      · exact Or.inr (List.mem_cons_of_mem _ h)

theorem append_allP {P : EarleyItem → Prop} {s : List EarleyItem} {v : EarleyItem}
    (hs : ∀ x ∈ s, P x) (hv : P v) : ∀ x ∈ ItemSet.append s v, P x := by
  intro x hx
  rcases append_mem hx with h | h
  · exact hs x h
  · exact h ▸ hv

theorem append_nodup {s : List EarleyItem} {v : EarleyItem}
    (hs : (keysOf s).Nodup) : (keysOf (ItemSet.append s v)).Nodup := by
  unfold ItemSet.append
  split
  · exact hs
  · next h =>
      have hnot : v.key ∉ keysOf s := by
        intro hmem
        rcases List.mem_map.mp hmem with ⟨y, hy, hk⟩
        exact h (List.any_eq_true.mpr ⟨y, hy, itemEq_iff_key.mpr hk⟩)
      have : keysOf (s ++ [v]) = keysOf s ++ [v.key] := by simp [keysOf]
      rw [this, List.nodup_append]
      refine ⟨hs, List.nodup_singleton _, ?_⟩
      intro k hk hk'
      simp only [List.mem_singleton] at hk'
      exact hnot (hk' ▸ hk)

theorem extend_nodup : ∀ (vs s : List EarleyItem),
    (keysOf s).Nodup → (keysOf (ItemSet.extend s vs)).Nodup := by
  intro vs
  induction vs with
  | nil => intro s hs; exact hs
  | cons w ws ih => intro s hs; exact ih (ItemSet.append s w) (append_nodup hs)

/-! ### `next_symb` inversion -/

theorem next_symb_some {it : EarleyItem} {t : List String} {sy : String}
    (h : (next_symb it t).2 = some sy) :
    it.dot < it.rule.rhs.length ∧ it.rule.rhs.get? it.dot = some sy := by
  unfold next_symb at h
  split at h
  · next hlt =>
      refine ⟨hlt, ?_⟩
      simp only [Prod.snd] at h
      rw [List.get?_eq_get hlt]
      simpa using h
  · simp at h

theorem next_symb_dot_lt {it : EarleyItem} {t : List String}
    (h : (next_symb it t).2.isSome) : it.dot < it.rule.rhs.length := by
  by_contra hge
  unfold next_symb at h
  rw [dif_neg hge] at h
  simp at h

theorem next_symb_complete {it : EarleyItem} {t : List String}
    (h : (next_symb it t).1 = EarleyState.Complete) :
    it.rule.rhs.length ≤ it.dot := by
  by_contra hlt
  push_neg at hlt
  unfold next_symb at h
  rw [dif_pos hlt] at h
  dsimp only at h
  split at h <;> simp_all

theorem next_symb_not_complete {it : EarleyItem} {t : List String}
    (h : (next_symb it t).1 ≠ EarleyState.Complete) :
    it.dot < it.rule.rhs.length := by
  by_contra hge
  unfold next_symb at h
  rw [dif_neg hge] at h
  simp at h

theorem next_symb_snd_of_not_complete {it : EarleyItem} {t : List String}
    (h : (next_symb it t).1 ≠ EarleyState.Complete) :
    ∃ sy, (next_symb it t).2 = some sy := by
  have hlt := next_symb_not_complete h
  unfold next_symb
  rw [dif_pos hlt]
  exact ⟨_, rfl⟩

/-! ### The lazy self-extension loop of `complete` -/

theorem suffWeight_get {s : List EarleyItem} {c : Nat} {old : EarleyItem}
    (h : s.get? c = some old) :
    suffWeight s c = itemWeight old + suffWeight s (c + 1) := by
  have hc : c < s.length := by
    by_contra hge
    rw [List.get?_eq_none.mpr (by omega)] at h
    cases h
  have hdrop : s.drop c = s[c] :: s.drop (c + 1) := List.drop_eq_getElem_cons hc
  have hold : s[c] = old := by
    have := List.getElem?_eq_getElem hc
    rw [← List.get?_eq_getElem?] at this
    rw [h] at this
    exact (Option.some_inj.mp this.symm)
  unfold suffWeight
  rw [hdrop, hold]
  simp

theorem suffWeight_append {s : List EarleyItem} {c : Nat} {v : EarleyItem}
    (h : c ≤ s.length) :
    suffWeight (s ++ [v]) c = suffWeight s c + itemWeight v := by
  unfold suffWeight
  rw [List.drop_append_of_le_length h]
  simp

theorem advanceItem_weight {old fin : EarleyItem}
    (h : old.dot < old.rule.rhs.length) :
    itemWeight (advanceItem old fin) + 1 = itemWeight old := by
  unfold itemWeight advanceItem
  simp only [EarleyItem.rule_mk, EarleyItem.dot_mk]
  omega

theorem selfStep_weight {lhs : String} {fin : EarleyItem} {t : List String}
    {s : List EarleyItem} {c : Nat} {old : EarleyItem}
    (hget : s.get? c = some old) :
    suffWeight (if (next_symb old t).2 == some lhs
                then ItemSet.append s (advanceItem old fin) else s) (c + 1)
      < suffWeight s c := by
  have hc : c < s.length := by
    by_contra hge
    rw [List.get?_eq_none.mpr (by omega)] at hget
    cases hget
  have hbase := suffWeight_get hget
  have hw : 1 ≤ itemWeight old := by unfold itemWeight; omega
  split
  · next hf =>
      have hdot : old.dot < old.rule.rhs.length := by
        apply next_symb_dot_lt
        rw [beq_iff_eq.mp hf]
        rfl
      unfold ItemSet.append
      split
      · omega
      · rw [suffWeight_append (by omega)]
        have := @advanceItem_weight old fin hdot
        omega
  · omega

theorem completeSelfF_extends (lhs : String) (fin : EarleyItem) (t : List String) :
    ∀ (fuel : Nat) (s : List EarleyItem) (c : Nat),
      s <+: completeSelfF lhs fin t fuel s c := by
  intro fuel
  induction fuel with
  | zero => intro s c; exact ⟨[], by simp [completeSelfF]⟩
  | succ fuel ih =>
      intro s c
      rw [completeSelfF]
      cases hget : s.get? c with
      | none => exact ⟨[], by simp⟩
      | some old =>
          dsimp only
          have hstep : s <+: (if (next_symb old t).2 == some lhs
              then ItemSet.append s (advanceItem old fin) else s) := by
            split
            · exact append_extends s _
            · exact ⟨[], by simp⟩
          exact hstep.trans (ih _ (c + 1))

theorem completeSelfF_sound (lhs : String) (fin : EarleyItem) (t : List String) :
    ∀ (fuel : Nat) (s : List EarleyItem) (c : Nat) (y : EarleyItem),
      y ∈ completeSelfF lhs fin t fuel s c →
      y ∈ s ∨ ∃ old, old ∈ completeSelfF lhs fin t fuel s c ∧
        (next_symb old t).2 = some lhs ∧ y = advanceItem old fin := by
  intro fuel
  induction fuel with
  | zero => intro s c y hy; exact Or.inl (by simpa [completeSelfF] using hy)
  | succ fuel ih =>
      intro s c y hy
      rw [completeSelfF] at hy ⊢
      cases hget : s.get? c with
      | none => rw [hget] at hy; exact Or.inl hy
      | some old =>
          rw [hget] at hy
          dsimp only at hy ⊢
          rcases ih _ (c + 1) y hy with hmem | ⟨o, ho, hf, hadv⟩
          · by_cases hcond : ((next_symb old t).2 == some lhs) = true
            · rw [if_pos hcond] at hmem ⊢
              rcases append_mem hmem with h | h
              · exact Or.inl h
              · refine Or.inr ⟨old, ?_, beq_iff_eq.mp hcond, h⟩
                have hin : old ∈ ItemSet.append s (advanceItem old fin) := by
                  have : old ∈ s := List.get?_mem hget
                  exact (append_extends s _).subset this
                exact (completeSelfF_extends lhs fin t fuel _ (c + 1)).subset hin
            · rw [if_neg hcond] at hmem ⊢
              exact Or.inl hmem
          · exact Or.inr ⟨o, ho, hf, hadv⟩

theorem completeSelfF_allP (lhs : String) (fin : EarleyItem) (t : List String)
    (P : EarleyItem → Prop)
    (hadv : ∀ old, P old → old.dot < old.rule.rhs.length → P (advanceItem old fin)) :
    ∀ (fuel : Nat) (s : List EarleyItem) (c : Nat),
      (∀ x ∈ s, P x) → ∀ y ∈ completeSelfF lhs fin t fuel s c, P y := by
  intro fuel
  induction fuel with
  | zero => intro s c hs y hy; exact hs y (by simpa [completeSelfF] using hy)
  | succ fuel ih =>
      intro s c hs y hy
      rw [completeSelfF] at hy
      cases hget : s.get? c with
      | none => rw [hget] at hy; exact hs y hy
      | some old =>
          rw [hget] at hy
          dsimp only at hy
          refine ih _ (c + 1) ?_ y hy
          split
          · next hcond =>
              refine append_allP hs (hadv old (hs old (List.get?_mem hget)) ?_)
              apply next_symb_dot_lt
              rw [beq_iff_eq.mp hcond]
              rfl
          · exact hs
  
theorem completeSelfF_nodup (lhs : String) (fin : EarleyItem) (t : List String) :
    ∀ (fuel : Nat) (s : List EarleyItem) (c : Nat),
      (keysOf s).Nodup → (keysOf (completeSelfF lhs fin t fuel s c)).Nodup := by
  intro fuel
  induction fuel with
  | zero => intro s c hs; simpa [completeSelfF] using hs
  | succ fuel ih =>
      intro s c hs
      rw [completeSelfF]
      cases hget : s.get? c with
      | none => exact hs
      | some old =>
          dsimp only
          refine ih _ (c + 1) ?_
          split
          · exact append_nodup hs
          · exact hs

theorem completeSelfF_keyMem (lhs : String) (fin : EarleyItem) (t : List String) :
    ∀ (fuel : Nat) (s : List EarleyItem) (c : Nat) (idx : Nat) (old : EarleyItem),
      suffWeight s c < fuel → c ≤ idx → s.get? idx = some old →
      (next_symb old t).2 = some lhs →
      ∃ y ∈ completeSelfF lhs fin t fuel s c, itemEq y (advanceItem old fin) = true := by
  intro fuel
  induction fuel with
  | zero => intro s c idx old hfuel; omega
  | succ fuel ih =>
      intro s c idx old hfuel hcidx hget hsymb
      rw [completeSelfF]
      cases hc : s.get? c with
      | none =>
          exfalso
          have hlen : s.length ≤ c := by
            by_contra hlt
            rw [List.get?_eq_getElem?, List.getElem?_eq_getElem (by omega)] at hc
            cases hc
          have : idx < s.length := by
            by_contra hge
            rw [List.get?_eq_none.mpr (by omega)] at hget
            cases hget
          omega
      | some cur =>
          dsimp only
          set s' := if (next_symb cur t).2 == some lhs
                    then ItemSet.append s (advanceItem cur fin) else s with hs'
          have hmeasure : suffWeight s' (c + 1) < suffWeight s c := selfStep_weight hc
          rcases Nat.lt_or_ge c idx with hlt | hge
          · -- the examined entry is before `idx`: recurse
            have hidxlen : idx < s.length := by
              by_contra hge2
              rw [List.get?_eq_none.mpr (by omega)] at hget
              cases hget
            have hget' : s'.get? idx = some old := by
              have hpre : s <+: s' := by
                rw [hs']; split
                · exact append_extends s _
                · exact ⟨[], by simp⟩
              rcases hpre with ⟨tl, htl⟩
              rw [← htl, List.get?_eq_getElem?, List.getElem?_append,
                if_pos hidxlen, ← List.get?_eq_getElem?]
              exact hget
            exact ih s' (c + 1) idx old (by omega) (by omega) hget' hsymb
          · -- the examined entry is `idx` itself: the advanced key is inserted now
            have hcur : cur = old := by
              have : c = idx := by omega
              rw [this, hget] at hc
              exact (Option.some_inj.mp hc).symm
            subst hcur
            have hcond : ((next_symb cur t).2 == some lhs) = true := beq_iff_eq.mpr hsymb
            have hkey : ∃ y ∈ s', itemEq y (advanceItem cur fin) = true := by
              rw [hs', if_pos hcond]
              exact append_keyMem s _
            exact keyMem_mono hkey (completeSelfF_extends lhs fin t fuel s' (c + 1))

/-! ### Chart position helpers -/

theorem posGet_set_self {chart : Chart} {j : Nat} {v : List EarleyItem}
    (h : j < chart.length) : posGet (chart.set j v) j = v := by
  simp [posGet, List.getD, List.getElem?_set_self, h]

theorem posGet_set_ne {chart : Chart} {j k : Nat} {v : List EarleyItem}
    (h : j ≠ k) : posGet (chart.set j v) k = posGet chart k := by
  simp [posGet, List.getD, List.getElem?_set_ne h]

theorem posGet_of_get? {chart : Chart} {j : Nat} {s : List EarleyItem}
    (h : chart.get? j = some s) : posGet chart j = s := by
  simp [posGet, List.getD, ← List.get?_eq_getElem?, h]

theorem get?_lt_length {chart : Chart} {j : Nat} {s : List EarleyItem}
    (h : chart.get? j = some s) : j < chart.length := by
  by_contra hge
  rw [List.get?_eq_none.mpr (by omega)] at h
  cases h

theorem chartInv_set {g : Grammar} {n : Nat} {chart : Chart} {j : Nat}
    {v : List EarleyItem} (hinv : ChartInv g n chart) (hj : j < chart.length)
    (hv : PosOk g j v) : ChartInv g n (chart.set j v) := by
  refine ⟨by simpa using hinv.1, ?_⟩
  intro k hk
  rw [List.length_set] at hk
  by_cases hkj : k = j
  · subst hkj
    rw [posGet_set_self hj]
    exact hv
  · rw [posGet_set_ne (fun h => hkj h.symm)]
    exact hinv.2 k hk

theorem extend_allP {P : EarleyItem → Prop} {s vs : List EarleyItem}
    (hs : ∀ x ∈ s, P x) (hvs : ∀ v ∈ vs, P v) :
    ∀ x ∈ ItemSet.extend s vs, P x := by
  intro x hx
  rcases extend_sound vs s x hx with h | h
  · exact hs x h
  · exact hvs x h

/-! ### `complete` characterization -/

theorem complete_err {chart : Chart} {dst : Nat} {item : EarleyItem} {t : List String}
    {e : PyErr} (h : complete chart dst item t = .error e) :
    e = PyErr.indexError ∧ chart.length ≤ item.start := by
  unfold complete at h
  cases hsrc : chart.get? item.start with
  | none =>
      rw [hsrc] at h
      dsimp only at h
      refine ⟨(Except.error.inj h).symm, ?_⟩
      by_contra hlt
      rw [List.get?_eq_getElem?, List.getElem?_eq_getElem (by omega)] at hsrc
      cases hsrc
  | some src =>
      rw [hsrc] at h
      dsimp only at h
      split at h <;> cases h

theorem complete_ok {chart : Chart} {dst : Nat} {item : EarleyItem} {t : List String}
    (hstart : item.start < chart.length) :
    ∃ chart', complete chart dst item t = .ok chart' := by
  unfold complete
  rw [List.get?_eq_getElem?, List.getElem?_eq_getElem hstart]
  dsimp only
  split <;> exact ⟨_, rfl⟩

theorem complete_props {chart : Chart} {dst : Nat} {item : EarleyItem} {t : List String}
    {chart' : Chart} (hds : dst < chart.length)
    (hok : complete chart dst item t = .ok chart') :
    chart'.length = chart.length
    ∧ (∀ j, j ≠ dst → posGet chart' j = posGet chart j)
    ∧ posGet chart dst <+: posGet chart' dst
    ∧ (∀ old ∈ posGet chart item.start, (next_symb old t).2 = some item.rule.lhs →
        ∃ y ∈ posGet chart' dst, itemEq y (advanceItem old item) = true)
    ∧ (∀ y ∈ posGet chart' dst, y ∈ posGet chart dst ∨
        ∃ old, old ∈ posGet chart' item.start ∧
          (next_symb old t).2 = some item.rule.lhs ∧ y = advanceItem old item) := by
  unfold complete at hok
  cases hsrc : chart.get? item.start with
  | none => rw [hsrc] at hok; cases hok
  | some src =>
      rw [hsrc] at hok
      dsimp only at hok
      have hstart : item.start < chart.length := get?_lt_length hsrc
      have hsrcpos : posGet chart item.start = src := posGet_of_get? hsrc
      by_cases hsd : item.start = dst
      · -- aliased case: source and destination are the same list object
        rw [if_pos hsd] at hok
        have hchart' := (Except.ok.inj hok).symm
        subst hchart'
        have hdstpos : posGet chart dst = src := by rw [← hsd]; exact hsrcpos
        have hres : posGet (chart.set dst
            (completeSelfF item.rule.lhs item t (suffWeight src 0 + 1) src 0)) dst =
            completeSelfF item.rule.lhs item t (suffWeight src 0 + 1) src 0 :=
          posGet_set_self hds
        refine ⟨by simp, fun j hj => posGet_set_ne (fun h => hj h.symm), ?_, ?_, ?_⟩
        · rw [hres, hdstpos]
          exact completeSelfF_extends _ _ _ _ _ _
        · intro old hold hsymb
          rw [hsrcpos] at hold
          rcases List.getElem_of_mem hold with ⟨idx, hidx, hval⟩
          have hget : src.get? idx = some old := by
            rw [List.get?_eq_getElem?, List.getElem?_eq_getElem hidx, hval]
          rw [hres]
          exact completeSelfF_keyMem _ _ _ _ _ _ idx old (by omega) (by omega) hget hsymb
        · intro y hy
          rw [hres] at hy
          rcases completeSelfF_sound _ _ _ _ _ _ y hy with h | ⟨old, ho, hf, hadv⟩
          · exact Or.inl (by rw [hdstpos]; exact h)
          · refine Or.inr ⟨old, ?_, hf, hadv⟩
            rw [hsd, hres]
            exact ho
      · -- distinct positions: the source list is a stable snapshot
        rw [if_neg hsd] at hok
        have hchart' := (Except.ok.inj hok).symm
        subst hchart'
        have hdfix : (chart.getD dst []) = posGet chart dst := rfl
        have hres : posGet (chart.set dst (ItemSet.extend (chart.getD dst [])
            ((src.filter (fun old => (next_symb old t).2 == some item.rule.lhs)).map
              (fun old => advanceItem old item)))) dst =
            ItemSet.extend (posGet chart dst)
              ((src.filter (fun old => (next_symb old t).2 == some item.rule.lhs)).map
                (fun old => advanceItem old item)) := by
          rw [← hdfix]
          exact posGet_set_self hds
        have hsrc' : posGet (chart.set dst (ItemSet.extend (chart.getD dst [])
            ((src.filter (fun old => (next_symb old t).2 == some item.rule.lhs)).map
              (fun old => advanceItem old item)))) item.start = src := by
          rw [posGet_set_ne (fun h => hsd h.symm)]
          exact hsrcpos
        refine ⟨by simp, fun j hj => posGet_set_ne (fun h => hj h.symm), ?_, ?_, ?_⟩
        · rw [hres]
          exact extend_extends _ _
        · intro old hold hsymb
          rw [hsrcpos] at hold
          rw [hres]
          refine extend_keyMem _ _ _ (List.mem_map_of_mem _ ?_)
          exact List.mem_filter.mpr ⟨hold, beq_iff_eq.mpr hsymb⟩
        · intro y hy
          rw [hres] at hy
          rcases extend_sound _ _ _ hy with h | h
          · exact Or.inl h
          · rcases List.mem_map.mp h with ⟨old, holdf, hadv⟩
            have hm := List.mem_filter.mp holdf
            refine Or.inr ⟨old, ?_, beq_iff_eq.mp hm.2, hadv.symm⟩
            rw [hsrc']
            exact hm.1

theorem itemOk_mono {g : Grammar} {j k : Nat} {x : EarleyItem}
    (hjk : j ≤ k) (h : ItemOk g j x) : ItemOk g k x :=
  ⟨h.1, Nat.le_trans h.2.1 hjk, h.2.2⟩

theorem advanceItem_itemOk {g : Grammar} {j : Nat} {old fin : EarleyItem}
    (h : ItemOk g j old) (hdot : old.dot < old.rule.rhs.length) :
    ItemOk g j (advanceItem old fin) := by
  obtain ⟨h1, h2, h3⟩ := h
  refine ⟨?_, ?_, ?_⟩
  · simpa [advanceItem] using h1
  · simpa [advanceItem] using h2
  · simp only [advanceItem, EarleyItem.rule_mk, EarleyItem.dot_mk]
    omega

theorem complete_chartInv {g : Grammar} {n : Nat} {chart : Chart} {dst : Nat}
    {item : EarleyItem} {t : List String} {chart' : Chart}
    (hinv : ChartInv g n chart) (hstart : item.start ≤ dst) (hds : dst < chart.length)
    (hok : complete chart dst item t = .ok chart') : ChartInv g n chart' := by
  unfold complete at hok
  cases hsrc : chart.get? item.start with
  | none => rw [hsrc] at hok; cases hok
  | some src =>
      rw [hsrc] at hok
      dsimp only at hok
      have hsl : item.start < chart.length := get?_lt_length hsrc
      have hsrcpos : posGet chart item.start = src := posGet_of_get? hsrc
      have hsrcOk : ∀ x ∈ src, ItemOk g item.start x := by
        rw [← hsrcpos]
        exact (hinv.2 item.start hsl).1
      by_cases hsd : item.start = dst
      · rw [if_pos hsd] at hok
        have hchart' := (Except.ok.inj hok).symm
        subst hchart'
        refine chartInv_set hinv hds ⟨?_, ?_⟩
        · refine completeSelfF_allP _ _ _ (ItemOk g dst)
            (fun old hold hdot => advanceItem_itemOk hold hdot) _ _ _ ?_
          intro x hx
          exact itemOk_mono (by omega) (hsrcOk x hx)
        · refine completeSelfF_nodup _ _ _ _ _ _ ?_
          have hnd := (hinv.2 dst hds).2
          rw [← hsd, hsrcpos] at hnd
          exact hnd
      · rw [if_neg hsd] at hok
        have hchart' := (Except.ok.inj hok).symm
        subst hchart'
        refine chartInv_set hinv hds ⟨?_, ?_⟩
        · refine extend_allP (hinv.2 dst hds).1 ?_
          intro v hv
          rcases List.mem_map.mp hv with ⟨old, holdf, rfl⟩
          have hm := List.mem_filter.mp holdf
          have hdot : old.dot < old.rule.rhs.length := by
            apply next_symb_dot_lt
            rw [beq_iff_eq.mp hm.2]
            rfl
          exact advanceItem_itemOk (itemOk_mono hstart (hsrcOk old hm.1)) hdot
        · exact extend_nodup _ _ (hinv.2 dst hds).2

/-! ### `predict` and `scan` -/

theorem lookup_mem_allRules {g : Grammar} {symb : String} {rs : List Rule}
    (h : g.lookup symb = some rs) : ∀ r ∈ rs, r ∈ allRules g := by
  intro r hr
  unfold Grammar.lookup at h
  rcases Option.map_eq_some'.mp h with ⟨p, hfind, hp⟩
  have hmem := List.mem_of_find?_eq_some hfind
  unfold allRules
  rw [List.mem_flatten]
  exact ⟨p.2, List.mem_map_of_mem _ hmem, hp ▸ hr⟩

theorem predict_sound {g : Grammar} {s : List EarleyItem} {symb : String} {i : Nat}
    {s' : List EarleyItem} (hok : predict g s symb i = some s') :
    s <+: s' ∧ ∀ y ∈ s', y ∈ s ∨ ∃ rule ∈ allRules g, y = EarleyItem.mk rule i 0 [] := by
  unfold predict at hok
  rcases Option.map_eq_some'.mp hok with ⟨rs, hlook, hs'⟩
  subst hs'
  refine ⟨extend_extends _ _, ?_⟩
  intro y hy
  rcases extend_sound _ _ _ hy with h | h
  · exact Or.inl h
  · rcases List.mem_map.mp h with ⟨rule, hrule, rfl⟩
    exact Or.inr ⟨rule, lookup_mem_allRules hlook rule hrule, rfl⟩

theorem predict_posOk {g : Grammar} {s : List EarleyItem} {symb : String} {i : Nat}
    {s' : List EarleyItem} (hok : predict g s symb i = some s')
    (hs : PosOk g i s) : PosOk g i s' := by
  unfold predict at hok
  rcases Option.map_eq_some'.mp hok with ⟨rs, hlook, hs'⟩
  subst hs'
  refine ⟨extend_allP hs.1 ?_, extend_nodup _ _ hs.2⟩
  intro v hv
  rcases List.mem_map.mp hv with ⟨rule, hrule, rfl⟩
  exact ⟨by simpa using lookup_mem_allRules hlook rule hrule, by simp, by simp⟩

theorem scan_err {chart : Chart} {item : EarleyItem} {symb word : String} {i : Nat}
    {e : PyErr} (h : scan chart item symb word i = .error e) :
    e = PyErr.indexError ∧ chart.length ≤ i + 1 := by
  unfold scan at h
  split at h
  · cases hget : chart.get? (i + 1) with
    | none =>
        rw [hget] at h
        dsimp only at h
        refine ⟨(Except.error.inj h).symm, ?_⟩
        by_contra hlt
        rw [List.get?_eq_getElem?, List.getElem?_eq_getElem (by omega)] at hget
        cases hget
    | some s => rw [hget] at h; cases h
  · cases h

theorem scan_ok {chart : Chart} {item : EarleyItem} {symb word : String} {i : Nat}
    (hlen : i + 1 < chart.length) :
    ∃ chart', scan chart item symb word i = .ok chart' := by
  unfold scan
  split
  · rw [List.get?_eq_getElem?, List.getElem?_eq_getElem hlen]
    exact ⟨_, rfl⟩
  · exact ⟨_, rfl⟩

theorem scan_props {chart : Chart} {item : EarleyItem} {symb word : String} {i : Nat}
    {chart' : Chart} (hok : scan chart item symb word i = .ok chart') :
    chart'.length = chart.length
    ∧ (∀ j, j ≠ i + 1 → posGet chart' j = posGet chart j)
    ∧ posGet chart (i + 1) <+: posGet chart' (i + 1)
    ∧ (∀ y ∈ posGet chart' (i + 1), y ∈ posGet chart (i + 1) ∨
        y = EarleyItem.mk item.rule item.start (item.dot + 1) item.prev) := by
  unfold scan at hok
  split at hok
  · cases hget : chart.get? (i + 1) with
    | none => rw [hget] at hok; cases hok
    | some s =>
        rw [hget] at hok
        dsimp only at hok
        have hchart' := (Except.ok.inj hok).symm
        subst hchart'
        have hlen : i + 1 < chart.length := get?_lt_length hget
        have hspos : posGet chart (i + 1) = s := posGet_of_get? hget
        have hres := @posGet_set_self chart (i + 1)
          (ItemSet.append s (EarleyItem.mk item.rule item.start (item.dot + 1) item.prev)) hlen
        refine ⟨by simp, fun j hj => posGet_set_ne (fun h => hj h.symm), ?_, ?_⟩
        · rw [hres, hspos]
          exact append_extends _ _
        · intro y hy
          rw [hres] at hy
          rcases append_mem hy with h | h
          · exact Or.inl (by rw [hspos]; exact h)
          · exact Or.inr h
  · have hchart' := (Except.ok.inj hok).symm
    subst hchart'
    exact ⟨rfl, fun j _ => rfl, ⟨[], by simp⟩, fun y hy => Or.inl hy⟩

theorem scan_chartInv {g : Grammar} {n : Nat} {chart : Chart} {item : EarleyItem}
    {symb word : String} {i : Nat} {chart' : Chart}
    (hinv : ChartInv g n chart) (hitem : ItemOk g i item)
    (hdot : item.dot < item.rule.rhs.length)
    (hok : scan chart item symb word i = .ok chart') : ChartInv g n chart' := by
  unfold scan at hok
  split at hok
  · cases hget : chart.get? (i + 1) with
    | none => rw [hget] at hok; cases hok
    | some s =>
        rw [hget] at hok
        dsimp only at hok
        have hchart' := (Except.ok.inj hok).symm
        subst hchart'
        have hlen : i + 1 < chart.length := get?_lt_length hget
        have hspos : posGet chart (i + 1) = s := posGet_of_get? hget
        refine chartInv_set hinv hlen ⟨?_, ?_⟩
        · refine append_allP ?_ ?_
          · rw [← hspos]
            exact (hinv.2 (i + 1) hlen).1
          · obtain ⟨hr, hst, hd⟩ := hitem
            exact ⟨by simpa using hr, by simp; omega, by simp; omega⟩
        · refine append_nodup ?_
          rw [← hspos]
          exact (hinv.2 (i + 1) hlen).2
  · have hchart' := (Except.ok.inj hok).symm
    subst hchart'
    exact hinv

/-! ### The finite key space bounds every position's length -/

theorem key_mem_universe {g : Grammar} {n j : Nat} {x : EarleyItem}
    (hj : j ≤ n) (hx : ItemOk g j x) : x.key ∈ keyUniverse g n := by
  obtain ⟨hr, hs, hd⟩ := hx
  unfold keyUniverse
  rw [List.mem_flatMap]
  refine ⟨x.rule, hr, ?_⟩
  rw [List.mem_flatMap]
  refine ⟨x.start, List.mem_range.mpr (by omega), ?_⟩
  rw [List.mem_map]
  exact ⟨x.dot, List.mem_range.mpr (by omega), rfl⟩

theorem posOk_length_le {g : Grammar} {n j : Nat} {s : List EarleyItem}
    (hj : j ≤ n) (h : PosOk g j s) : s.length ≤ (keyUniverse g n).length := by
  have hlen : s.length = (keysOf s).length := by simp [keysOf]
  rw [hlen]
  refine List.Subperm.length_le (List.Nodup.subperm h.2 ?_)
  intro k hk
  rcases List.mem_map.mp hk with ⟨x, hx, rfl⟩
  exact key_mem_universe hj (h.1 x hx)

theorem posOk_length_lt_cap {g : Grammar} {n j : Nat} {s : List EarleyItem}
    (hj : j ≤ n) (h : PosOk g j s) : s.length < chartCap g n := by
  have := posOk_length_le hj h
  unfold chartCap
  omega

theorem get_of_isPre {s s' : List EarleyItem} (hp : s <+: s') {idx : Nat}
    (h1 : idx < s.length) (h2 : idx < s'.length) :
    s'.get ⟨idx, h2⟩ = s.get ⟨idx, h1⟩ := by
  rcases hp with ⟨tl, htl⟩
  subst htl
  simp [List.get_eq_getElem, List.getElem_append_left h1]

theorem get?_of_isPre {s s' : List EarleyItem} (hp : s <+: s') {idx : Nat}
    {x : EarleyItem} (h : s.get? idx = some x) : s'.get? idx = some x := by
  rcases hp with ⟨tl, htl⟩
  subst htl
  have h1 : idx < s.length := by
    by_contra hge
    rw [List.get?_eq_none.mpr (by omega)] at h
    cases h
  rw [List.get?_eq_getElem?, List.getElem?_append, if_pos h1, ← List.get?_eq_getElem?]
  exact h

/-! ### One worklist step of the main loop -/

theorem stepItem_props {g : Grammar} {t : List String} {word : String} {i : Nat}
    {chart : Chart} {item : EarleyItem} {chart' : Chart}
    (hi : i < chart.length)
    (hok : stepItem g t word i chart item = .ok chart') :
    chart'.length = chart.length ∧ ∀ j, posGet chart j <+: posGet chart' j := by
  unfold stepItem at hok
  rcases hns : next_symb item t with ⟨st, sy⟩
  rw [hns] at hok
  cases st with
  | Complete =>
      have hok' : complete chart i item t = .ok chart' := by cases sy <;> exact hok
      obtain ⟨hlen, hne, hpre, -, -⟩ := complete_props hi hok'
      refine ⟨hlen, fun j => ?_⟩
      by_cases hj : j = i
      · subst hj; exact hpre
      · rw [hne j hj]
  | NonTerminal =>
      cases sy with
      | none =>
          dsimp only at hok
          have := (Except.ok.inj hok).symm
          subst this
          exact ⟨rfl, fun j => ⟨[], by simp⟩⟩
      | some symb =>
          dsimp only at hok
          cases hpred : predict g (chart.getD i []) symb i with
          | none => rw [hpred] at hok; cases hok
          | some s' =>
              rw [hpred] at hok
              dsimp only at hok
              have := (Except.ok.inj hok).symm
              subst this
              obtain ⟨hpre, -⟩ := predict_sound hpred
              refine ⟨by simp, fun j => ?_⟩
              by_cases hj : j = i
              · subst hj
                rw [posGet_set_self hi]
                exact hpre
              · rw [posGet_set_ne (fun h => hj h.symm)]
  | Terminal =>
      cases sy with
      | none =>
          dsimp only at hok
          have := (Except.ok.inj hok).symm
          subst this
          exact ⟨rfl, fun j => ⟨[], by simp⟩⟩
      | some symb =>
          dsimp only at hok
          obtain ⟨hlen, hne, hpre, -⟩ := scan_props hok
          refine ⟨hlen, fun j => ?_⟩
          by_cases hj : j = i + 1
          · subst hj; exact hpre
          · rw [hne j hj]

theorem stepItem_chartInv {g : Grammar} {n : Nat} {t : List String} {word : String}
    {i : Nat} {chart : Chart} {item : EarleyItem} {chart' : Chart}
    (hinv : ChartInv g n chart) (hi : i < chart.length)
    (hitem : item ∈ posGet chart i)
    (hok : stepItem g t word i chart item = .ok chart') : ChartInv g n chart' := by
  have hItemOk : ItemOk g i item := (hinv.2 i hi).1 item hitem
  unfold stepItem at hok
  rcases hns : next_symb item t with ⟨st, sy⟩
  rw [hns] at hok
  cases st with
  | Complete =>
      have hok' : complete chart i item t = .ok chart' := by cases sy <;> exact hok
      exact complete_chartInv hinv hItemOk.2.1 hi hok'
  | NonTerminal =>
      cases sy with
      | none =>
          dsimp only at hok
          have := (Except.ok.inj hok).symm
          subst this
          exact hinv
      | some symb =>
          dsimp only at hok
          cases hpred : predict g (chart.getD i []) symb i with
          | none => rw [hpred] at hok; cases hok
          | some s' =>
              rw [hpred] at hok
              dsimp only at hok
              have := (Except.ok.inj hok).symm
              subst this
              exact chartInv_set hinv hi (predict_posOk hpred (hinv.2 i hi))
  | Terminal =>
      cases sy with
      | none =>
          dsimp only at hok
          have := (Except.ok.inj hok).symm
          subst this
          exact hinv
      | some symb =>
          dsimp only at hok
          have hdot : item.dot < item.rule.rhs.length := by
            apply next_symb_not_complete
            rw [hns]
            simp
          exact scan_chartInv hinv hItemOk hdot hok

theorem stepItem_err_shape {g : Grammar} {t : List String} {word : String} {i : Nat}
    {chart : Chart} {item : EarleyItem} {e : PyErr}
    (h : stepItem g t word i chart item = .error e) :
    e = PyErr.indexError ∨ ∃ sy, e = PyErr.keyError sy := by
  unfold stepItem at h
  rcases hns : next_symb item t with ⟨st, sy⟩
  rw [hns] at h
  cases st with
  | Complete =>
      have h' : complete chart i item t = .error e := by cases sy <;> exact h
      exact Or.inl (complete_err h').1
  | NonTerminal =>
      cases sy with
      | none => dsimp only at h; cases h
      | some symb =>
          dsimp only at h
          cases hpred : predict g (chart.getD i []) symb i with
          | none =>
              rw [hpred] at h
              dsimp only at h
              exact Or.inr ⟨symb, (Except.error.inj h).symm⟩
          | some s' => rw [hpred] at h; cases h
  | Terminal =>
      cases sy with
      | none => dsimp only at h; cases h
      | some symb =>
          dsimp only at h
          exact Or.inl (scan_err h).1

theorem stepItem_not_indexError {g : Grammar} {n : Nat} {t : List String}
    {word : String} {i : Nat} {chart : Chart} {item : EarleyItem}
    (hinv : ChartInv g n chart) (hi : i < n) (hitem : item ∈ posGet chart i) :
    stepItem g t word i chart item ≠ .error PyErr.indexError := by
  intro h
  have hlen : chart.length = n + 1 := hinv.1
  have hil : i < chart.length := by omega
  have hItemOk : ItemOk g i item := (hinv.2 i hil).1 item hitem
  unfold stepItem at h
  rcases hns : next_symb item t with ⟨st, sy⟩
  rw [hns] at h
  cases st with
  | Complete =>
      have h' : complete chart i item t = .error PyErr.indexError := by
        cases sy <;> exact h
      have := (complete_err h').2
      have := hItemOk.2.1
      omega
  | NonTerminal =>
      cases sy with
      | none => dsimp only at h; cases h
      | some symb =>
          dsimp only at h
          cases hpred : predict g (chart.getD i []) symb i with
          | none =>
              rw [hpred] at h
              dsimp only at h
              cases Except.error.inj h
          | some s' => rw [hpred] at h; cases h
  | Terminal =>
      cases sy with
      | none => dsimp only at h; cases h
      | some symb =>
          dsimp only at h
          have := (scan_err h).2
          omega

/-! ### The per-position worklist loop -/

theorem posLoopF_props {g : Grammar} {n : Nat} {t : List String} {word : String}
    {i : Nat} :
    ∀ (fuel : Nat) (chart : Chart) (c : Nat),
    ChartInv g n chart → i < n →
    (∃ chart', posLoopF g t word i fuel chart c = .ok chart' ∧ ChartInv g n chart'
       ∧ ∀ j, posGet chart j <+: posGet chart' j)
    ∨ (∃ sy, posLoopF g t word i fuel chart c = .error (PyErr.keyError sy)) := by
  intro fuel
  induction fuel with
  | zero =>
      intro chart c hinv hi
      exact Or.inl ⟨chart, rfl, hinv, fun j => ⟨[], by simp⟩⟩
  | succ fuel ih =>
      intro chart c hinv hi
      rw [posLoopF]
      cases hget : (chart.getD i []).get? c with
      | none => exact Or.inl ⟨chart, rfl, hinv, fun j => ⟨[], by simp⟩⟩
      | some item =>
          dsimp only
          have hitem : item ∈ posGet chart i := List.get?_mem hget
          have hil : i < chart.length := by
            have := hinv.1
            omega
          cases hstep : stepItem g t word i chart item with
          | error e =>
              rcases stepItem_err_shape hstep with he | ⟨sy, he⟩
              · exact absurd (he ▸ hstep) (stepItem_not_indexError hinv hi hitem)
              · subst he
                exact Or.inr ⟨sy, rfl⟩
          | ok chart2 =>
              obtain ⟨hlen2, hpre2⟩ := stepItem_props hil hstep
              have hinv2 : ChartInv g n chart2 := stepItem_chartInv hinv hil hitem hstep
              rcases ih chart2 (c + 1) hinv2 hi with ⟨chart', hrun, hinv', hpre'⟩ | ⟨sy, hrun⟩
              · exact Or.inl ⟨chart', hrun, hinv',
                  fun j => (hpre2 j).trans (hpre' j)⟩
              · exact Or.inr ⟨sy, hrun⟩

/-! ### The outer loop over input positions -/

theorem mainLoopF_props {g : Grammar} {n : Nat} {t : List String} {K : Nat} :
    ∀ (ws : List String) (i : Nat) (chart : Chart),
    ChartInv g n chart → i + ws.length = n →
    (∃ chart', mainLoopF g t K ws i chart = .ok chart' ∧ ChartInv g n chart'
       ∧ ∀ j, posGet chart j <+: posGet chart' j)
    ∨ (∃ sy, mainLoopF g t K ws i chart = .error (PyErr.keyError sy)) := by
  intro ws
  induction ws with
  | nil =>
      intro i chart hinv _
      exact Or.inl ⟨chart, rfl, hinv, fun j => ⟨[], by simp⟩⟩
  | cons word ws ih =>
      intro i chart hinv hlen
      rw [mainLoopF]
      have hi : i < n := by
        simp only [List.length_cons] at hlen
        omega
      have hil : i < chart.length := by
        have := hinv.1
        omega
      rw [if_pos hil]
      rcases posLoopF_props K chart 0 hinv hi with ⟨chart2, hrun2, hinv2, hpre2⟩ | ⟨sy, hrun2⟩
      · rw [hrun2]
        dsimp only
        have hlen2 : i + 1 + ws.length = n := by
          simp only [List.length_cons] at hlen
          omega
        rcases ih (i + 1) chart2 hinv2 hlen2 with ⟨chart', hrun', hinv', hpre'⟩ | ⟨sy, hrun'⟩
        · exact Or.inl ⟨chart', hrun', hinv', fun j => (hpre2 j).trans (hpre' j)⟩
        · exact Or.inr ⟨sy, hrun'⟩
      · rw [hrun2]
        exact Or.inr ⟨sy, rfl⟩

/-! ### The completion-only final sweep -/

theorem mem_get? {l : List EarleyItem} {x : EarleyItem} (h : x ∈ l) :
    ∃ idx, l.get? idx = some x ∧ idx < l.length := by
  rcases List.getElem_of_mem h with ⟨idx, hidx, hval⟩
  exact ⟨idx, by rw [List.get?_eq_getElem?, List.getElem?_eq_getElem hidx, hval], hidx⟩

theorem get?_some_lt {l : List EarleyItem} {idx : Nat} {x : EarleyItem}
    (h : l.get? idx = some x) : idx < l.length := by
  by_contra hge
  rw [List.get?_eq_none.mpr (by omega)] at h
  cases h

theorem completedAt_mono {t : List String} {chart chart' : Chart} {last : Nat}
    {x : EarleyItem}
    (hne : ∀ j, j ≠ last → posGet chart' j = posGet chart j)
    (hpre : posGet chart last <+: posGet chart' last)
    (h : completedAt t chart last x) : completedAt t chart' last x := by
  intro hfin hstart old hold hsym
  rw [hne x.start (by omega)] at hold
  rcases h hfin hstart old hold hsym with ⟨y, hy, he⟩
  exact ⟨y, hpre.subset hy, he⟩

theorem posPre_of_step {chart2 chart' : Chart} {last : Nat}
    (hne : ∀ j, j ≠ last → posGet chart' j = posGet chart2 j)
    (hpre : posGet chart2 last <+: posGet chart' last) :
    ∀ j, posGet chart2 j <+: posGet chart' j := by
  intro j
  by_cases hj : j = last
  · subst hj; exact hpre
  · rw [hne j hj]

theorem finalLoopF_props {g : Grammar} {n : Nat} {t : List String} :
    ∀ (fuel : Nat) (chart : Chart) (c : Nat),
    ChartInv g n chart →
    (keyUniverse g n).length < fuel + c →
    (∀ idx, idx < c → ∀ x, (posGet chart n).get? idx = some x → completedAt t chart n x) →
    ∃ chart', finalLoopF t n fuel chart c = .ok chart'
      ∧ ChartInv g n chart'
      ∧ (∀ j, j ≠ n → posGet chart' j = posGet chart j)
      ∧ posGet chart n <+: posGet chart' n
      ∧ (∀ y ∈ posGet chart' n, y ∈ posGet chart n ∨ sweepAddition t chart' n y)
      ∧ (∀ x ∈ posGet chart' n, completedAt t chart' n x) := by
  intro fuel
  induction fuel with
  | zero =>
      intro chart c hinv hcap hdoneUpTo
      have hn : n < chart.length := by
        have := hinv.1
        omega
      have hlenle : (posGet chart n).length ≤ (keyUniverse g n).length :=
        posOk_length_le (Nat.le_refl n) (hinv.2 n hn)
      have hdone : ∀ x ∈ posGet chart n, completedAt t chart n x := by
        intro x hx
        rcases mem_get? hx with ⟨idx, hidx, hlt⟩
        exact hdoneUpTo idx (by omega) x hidx
      exact ⟨chart, rfl, hinv, fun j _ => rfl, ⟨[], by simp⟩,
        fun y hy => Or.inl hy, hdone⟩
  | succ fuel ih =>
      intro chart c hinv hcap hdoneUpTo
      have hn : n < chart.length := by
        have := hinv.1
        omega
      rw [finalLoopF]
      cases hget : (chart.getD n []).get? c with
      | none =>
          have hlen_le : (posGet chart n).length ≤ c := by
            by_contra hlt
            rw [show chart.getD n [] = posGet chart n from rfl] at hget
            rw [List.get?_eq_getElem?, List.getElem?_eq_getElem (by omega)] at hget
            cases hget
          have hdone : ∀ x ∈ posGet chart n, completedAt t chart n x := by
            intro x hx
            rcases mem_get? hx with ⟨idx, hidx, hlt⟩
            exact hdoneUpTo idx (by omega) x hidx
          exact ⟨chart, rfl, hinv, fun j _ => rfl, ⟨[], by simp⟩,
            fun y hy => Or.inl hy, hdone⟩
      | some item =>
          dsimp only
          have hitem : item ∈ posGet chart n := List.get?_mem hget
          have hclt : c < (posGet chart n).length := get?_some_lt hget
          have hItemOk : ItemOk g n item := (hinv.2 n hn).1 item hitem
          have hsle : item.start ≤ n := hItemOk.2.1
          have hgetP : (posGet chart n).get? c = some item := hget
          rcases hns : next_symb item t with ⟨st, sy⟩
          by_cases hst : st = EarleyState.Complete
          · -- the examined entry is finished: it is completed now
            subst hst
            have hfin : item.rule.rhs.length ≤ item.dot := by
              apply next_symb_complete
              rw [hns]
            rcases @complete_ok chart n item t (by omega : item.start < chart.length)
              with ⟨chart2, hok⟩
            have hfs : finalStep t n chart item = .ok chart2 := by
              unfold finalStep
              rw [hns]
              cases sy <;> exact hok
            rw [hfs]
            dsimp only
            obtain ⟨hlen2, hne2, hpre2, hcmp2, hsnd2⟩ := complete_props hn hok
            have hinv2 : ChartInv g n chart2 :=
              complete_chartInv hinv hItemOk.2.1 hn hok
            have hdone2 : ∀ idx, idx < c + 1 → ∀ x,
                (posGet chart2 n).get? idx = some x → completedAt t chart2 n x := by
              intro idx hidx x hx2
              rcases Nat.lt_or_ge idx c with hlt | hge
              · have hx1 : (posGet chart n).get? idx = some ((posGet chart n).get ⟨idx, by omega⟩) := by
                  rw [List.get?_eq_getElem?, List.getElem?_eq_getElem (by omega)]
                  simp
                have hx2' := get?_of_isPre hpre2 hx1
                rw [hx2] at hx2'
                have hxx := Option.some_inj.mp hx2'
                exact completedAt_mono hne2 hpre2
                  (hxx ▸ hdoneUpTo idx hlt _ hx1)
              · have hc : idx = c := by omega
                subst hc
                have hx2' := get?_of_isPre hpre2 hgetP
                rw [hx2] at hx2'
                have hxx : x = item := Option.some_inj.mp hx2'
                rw [hxx]
                intro _ hstart old hold hsym
                rw [hne2 item.start (by omega)] at hold
                exact hcmp2 old hold hsym
            rcases ih chart2 (c + 1) hinv2 (by omega) hdone2 with
              ⟨chart', hrun, hinv', hne', hpre', hsnd', hdone'⟩
            have hall' : ∀ j, posGet chart2 j <+: posGet chart' j :=
              posPre_of_step hne' hpre'
            refine ⟨chart', hrun, hinv', ?_, hpre2.trans hpre', ?_, hdone'⟩
            · intro j hj
              rw [hne' j hj, hne2 j hj]
            · intro y hy
              rcases hsnd' y hy with hy2 | hadd
              · rcases hsnd2 y hy2 with hy1 | ⟨old, hold, hsym, hadv⟩
                · exact Or.inl hy1
                · refine Or.inr ⟨old, item, ?_, hfin, ?_, hsym, hadv⟩
                  · exact (hpre2.trans hpre').subset hitem
                  · exact (hall' item.start).subset hold
              · exact Or.inr hadd
          · -- not finished: the sweep skips it (no predict, no scan)
            have hfs : finalStep t n chart item = .ok chart := by
              unfold finalStep
              rw [hns]
              cases st with
              | Complete => exact absurd rfl hst
              | Terminal => cases sy <;> rfl
              | NonTerminal => cases sy <;> rfl
            rw [hfs]
            dsimp only
            have hdone2 : ∀ idx, idx < c + 1 → ∀ x,
                (posGet chart n).get? idx = some x → completedAt t chart n x := by
              intro idx hidx x hx2
              rcases Nat.lt_or_ge idx c with hlt | hge
              · exact hdoneUpTo idx hlt x hx2
              · have hc : idx = c := by omega
                subst hc
                rw [hgetP] at hx2
                have hxx : x = item := (Option.some_inj.mp hx2).symm
                rw [hxx]
                intro hfin
                exfalso
                have hdot : item.dot < item.rule.rhs.length := by
                  apply next_symb_not_complete
                  rw [hns]
                  simpa using hst
                omega
            exact ih chart (c + 1) hinv (by omega) hdone2

/-! ### Grammar construction -/

theorem insertRule_groupInv {k : Nat} {m : List (String × List Rule)} {r : Rule}
    (hm : GroupInv k m) (hr : r.tag = k) : GroupInv (k + 1) (insertRule m r) := by
  unfold insertRule
  split
  · intro p hp
    rcases List.mem_map.mp hp with ⟨q, hq, hpq⟩
    by_cases hql : (q.1 == r.lhs) = true
    · rw [if_pos hql] at hpq
      subst hpq
      obtain ⟨hb, hn⟩ := hm q hq
      constructor
      · intro x hx
        rcases List.mem_append.mp hx with h | h
        · exact Nat.lt_succ_of_lt (hb x h)
        · simp only [List.mem_singleton] at h
          subst h
          omega
      · simp only [List.map_append, List.map_cons, List.map_nil]
        rw [List.nodup_append]
        refine ⟨hn, List.nodup_singleton _, ?_⟩
        intro a ha hb2
        simp only [List.mem_singleton] at hb2
        rcases List.mem_map.mp ha with ⟨x, hx, hax⟩
        have := (hm q hq).1 x hx
        omega
    · rw [if_neg hql] at hpq
      subst hpq
      obtain ⟨hb, hn⟩ := hm q hq
      exact ⟨fun x hx => Nat.lt_succ_of_lt (hb x hx), hn⟩
  · intro p hp
    rcases List.mem_append.mp hp with h | h
    · obtain ⟨hb, hn⟩ := hm p h
      exact ⟨fun x hx => Nat.lt_succ_of_lt (hb x hx), hn⟩
    · simp only [List.mem_singleton] at h
      subst h
      constructor
      · intro x hx
        simp only [List.mem_singleton] at hx
        subst hx
        omega
      · simp

theorem foldl_insertRule_groupInv :
    ∀ (raw : List (String × List String)) (k : Nat) (m : List (String × List Rule)),
    GroupInv k m →
    GroupInv (k + raw.length) (List.foldl insertRule m (tagRulesFrom k raw)) := by
  intro raw
  induction raw with
  | nil => intro k m hm; simpa [tagRulesFrom] using hm
  | cons p rest ih =>
      intro k m hm
      rcases p with ⟨l, r⟩
      rw [tagRulesFrom]
      simp only [List.foldl_cons, List.length_cons]
      have h1 := @insertRule_groupInv k m ⟨k, l, r⟩ hm rfl
      have h2 := ih (k + 1) (insertRule m ⟨k, l, r⟩) h1
      have : k + 1 + rest.length = k + (rest.length + 1) := by omega
      rw [this] at h2
      exact h2

theorem mkGrammar_groupInv (raw : List (String × List String)) (start : String) :
    GroupInv raw.length (mkGrammar raw start).rules := by
  have h := foldl_insertRule_groupInv raw 0 [] (fun p hp => by cases hp)
  simpa [mkGrammar, Grammar.build] using h

theorem lookup_tags_nodup {raw : List (String × List String)} {start s : String}
    {rs : List Rule} (h : (mkGrammar raw start).lookup s = some rs) :
    (rs.map Rule.tag).Nodup := by
  unfold Grammar.lookup at h
  rcases Option.map_eq_some'.mp h with ⟨p, hfind, hp⟩
  have hmem := List.mem_of_find?_eq_some hfind
  have := mkGrammar_groupInv raw start p hmem
  exact hp ▸ this.2

/-- The initial chart of `earley`: the start rules' dot-0 items at position
0 and one empty collection per input word. -/
theorem initChart_inv {raw : List (String × List String)} {start : String}
    {w : List String} {rs : List Rule}
    (hlook : (mkGrammar raw start).lookup (mkGrammar raw start).start_rule = some rs) :
    ChartInv (mkGrammar raw start) w.length
      ((rs.map (fun rule => EarleyItem.mk rule 0 0 [])) :: w.map (fun _ => [])) := by
  constructor
  · simp
  · intro j hj
    cases j with
    | zero =>
        constructor
        · intro it hit
          rcases List.mem_map.mp hit with ⟨rule, hrule, rfl⟩
          exact ⟨by simpa using lookup_mem_allRules hlook rule hrule, by simp, by simp⟩
        · have hnd : rs.Nodup := List.Nodup.of_map Rule.tag (lookup_tags_nodup hlook)
          have hpos : posGet ((rs.map (fun rule => EarleyItem.mk rule 0 0 [])) ::
              w.map (fun _ => [])) 0 = rs.map (fun rule => EarleyItem.mk rule 0 0 []) := rfl
          rw [hpos]
          have hkeys : keysOf (rs.map (fun rule => EarleyItem.mk rule 0 0 [])) =
              rs.map (fun rule => ((rule, 0, 0) : Rule × Nat × Nat)) := by
            simp [keysOf, EarleyItem.key]
          rw [hkeys]
          exact hnd.map (fun a b hab => by
            simpa using congrArg (fun q => q.1) hab)
    | succ j =>
        have hpos : posGet ((rs.map (fun rule => EarleyItem.mk rule 0 0 [])) ::
            w.map (fun _ => [])) (j + 1) = ([] : List EarleyItem) := by
          simp only [posGet, List.getD_cons_succ]
          simp [List.getD, List.getElem?_map]
        rw [hpos]
        constructor
        · intro it hit
          cases hit
        · simp [keysOf]

theorem finalStep_props {t : List String} {last : Nat} {chart : Chart}
    {item : EarleyItem} {chart' : Chart} (hlast : last < chart.length)
    (hok : finalStep t last chart item = .ok chart') :
    chart'.length = chart.length ∧ ∀ j, posGet chart j <+: posGet chart' j := by
  unfold finalStep at hok
  rcases hns : next_symb item t with ⟨st, sy⟩
  rw [hns] at hok
  cases st with
  | Complete =>
      have hok' : complete chart last item t = .ok chart' := by cases sy <;> exact hok
      obtain ⟨hlen, hne, hpre, -, -⟩ := complete_props hlast hok'
      refine ⟨hlen, fun j => ?_⟩
      by_cases hj : j = last
      · subst hj; exact hpre
      · rw [hne j hj]
  | Terminal =>
      have hok' : chart = chart' := by cases sy <;> exact Except.ok.inj hok
      subst hok'
      exact ⟨rfl, fun j => ⟨[], by simp⟩⟩
  | NonTerminal =>
      have hok' : chart = chart' := by cases sy <;> exact Except.ok.inj hok
      subst hok'
      exact ⟨rfl, fun j => ⟨[], by simp⟩⟩

/-! ### The whole `earley` run -/

theorem earley_run (raw : List (String × List String)) (start : String)
    (t w : List String) :
    (∃ chart, earley (mkGrammar raw start) t w = .ok chart
       ∧ ChartInv (mkGrammar raw start) w.length chart
       ∧ (∀ x ∈ posGet chart w.length, completedAt t chart w.length x))
    ∨ (∃ sy, earley (mkGrammar raw start) t w = .error (PyErr.keyError sy)) := by
  unfold earley
  cases hlook : (mkGrammar raw start).lookup (mkGrammar raw start).start_rule with
  | none => exact Or.inr ⟨(mkGrammar raw start).start_rule, rfl⟩
  | some rs =>
      dsimp only
      have hinv0 := @initChart_inv raw start w rs hlook
      rcases @mainLoopF_props (mkGrammar raw start) w.length t
          (chartCap (mkGrammar raw start) w.length) w 0
          ((rs.map (fun rule => EarleyItem.mk rule 0 0 [])) :: w.map (fun _ => []))
          hinv0 (by simp) with ⟨chart1, hrun1, hinv1, -⟩ | ⟨sy, hrun1⟩
      · rw [hrun1]
        dsimp only
        have hlen1 : chart1.length - 1 = w.length := by
          have := hinv1.1
          omega
        rw [hlen1]
        rcases finalLoopF_props (chartCap (mkGrammar raw start) w.length) chart1 0
            hinv1 (by unfold chartCap; omega) (fun idx hidx => by omega) with
          ⟨chart', hrun', hinv', hne', hpre', hsnd', hdone'⟩
        rw [hrun']
        exact Or.inl ⟨chart', rfl, hinv', hdone'⟩
      · rw [hrun1]
        exact Or.inr ⟨sy, rfl⟩

theorem posGet_eq_nil_of_le {chart : Chart} {j : Nat} (h : chart.length ≤ j) :
    posGet chart j = [] := by
  simp [posGet, List.getD, List.getElem?_eq_none h]

theorem earley_ok_inv {raw : List (String × List String)} {start : String}
    {t w : List String} {chart : Chart}
    (hok : earley (mkGrammar raw start) t w = .ok chart) :
    ChartInv (mkGrammar raw start) w.length chart
    ∧ (∀ x ∈ posGet chart w.length, completedAt t chart w.length x) := by
  rcases earley_run raw start t w with ⟨chart2, hok2, hinv2, hdone2⟩ | ⟨sy, herr⟩
  · rw [hok] at hok2
    have h := Except.ok.inj hok2
    subst h
    exact ⟨hinv2, hdone2⟩
  · rw [herr] at hok
    cases hok

/-! ### The claims -/

/-- C1: after the chart is built, the parse succeeds if and only if some
item in the final position's collection has `dot == len(rule.rhs)`,
`origin == 0`, and `rule.lhs` equal to the grammar's start symbol; if no
such item exists, or the chart's length differs from `len(input) + 1`
(which cannot happen for a chart produced by `earley`), `NoParse` is
reported (`acceptCheck` returns `none`). -/
theorem claim1_accept_iff (raw : List (String × List String)) (start : String)
    (t w : List String) (chart : Chart)
    (hok : earley (mkGrammar raw start) t w = .ok chart) :
    chart.length = w.length + 1
    ∧ ((acceptCheck chart w.length start).isSome ↔
        ∃ it ∈ posGet chart w.length,
          it.dot = it.rule.rhs.length ∧ it.start = 0 ∧ it.rule.lhs = start) := by
  have hinv := (earley_ok_inv hok).1
  have hlen : chart.length = w.length + 1 := hinv.1
  refine ⟨hlen, ?_⟩
  unfold acceptCheck
  rw [hlen]
  simp only [beq_self_eq_true, if_pos, Nat.add_sub_cancel]
  rw [show chart.getD w.length [] = posGet chart w.length from rfl]
  rw [List.find?_isSome]
  constructor
  · rintro ⟨x, hx, hp⟩
    refine ⟨x, hx, ?_⟩
    simpa [isAccepting, Bool.and_eq_true, beq_iff_eq, and_assoc] using hp
  · rintro ⟨x, hx, h1, h2, h3⟩
    exact ⟨x, hx, by simp [isAccepting, h1, h2, h3]⟩

/-- Witness for C1 at the grammar `a -> b` on input `b`. -/
theorem claim1_accept_iff_witness :
    ([[exItA], [exItB]] : Chart).length = 1 + 1
    ∧ ((acceptCheck [[exItA], [exItB]] 1 "a").isSome ↔
        ∃ it ∈ posGet [[exItA], [exItB]] 1,
          it.dot = it.rule.rhs.length ∧ it.start = 0 ∧ it.rule.lhs = "a") :=
  claim1_accept_iff [("a", ["b"])] "a" ["b"] ["b"] [[exItA], [exItB]] rfl

/-- C2: for every finished item processed at chart position `i` (the
destination `dst` of `complete`), `complete` inserts, for each item of
position `finished_item.origin`'s collection whose symbol after the dot
equals the finished item's left-hand symbol, the item
`(its.rule, its.origin, its.dot + 1, its.backpointers ++ [finished_item])`
into position `i`'s collection — insertion with `ItemSet.append`'s
de-duplication, so an item with the advanced key is present afterwards, and
everything that appears beyond the prior contents is exactly such an
advanced item. -/
theorem claim2_complete_spec (chart : Chart) (dst : Nat) (item : EarleyItem)
    (t : List String) (chart' : Chart) (hds : dst < chart.length)
    (hok : complete chart dst item t = .ok chart') :
    (∀ old ∈ posGet chart item.start, (next_symb old t).2 = some item.rule.lhs →
       ∃ y ∈ posGet chart' dst, itemEq y (advanceItem old item) = true)
    ∧ (∀ y ∈ posGet chart' dst, y ∈ posGet chart dst ∨
        ∃ old, old ∈ posGet chart' item.start ∧
          (next_symb old t).2 = some item.rule.lhs ∧ y = advanceItem old item)
    ∧ posGet chart dst <+: posGet chart' dst
    ∧ (∀ j, j ≠ dst → posGet chart' j = posGet chart j) := by
  obtain ⟨-, hne, hpre, hcmp, hsnd⟩ := complete_props hds hok
  exact ⟨hcmp, hsnd, hpre, hne⟩

/-- Witness for C2: completing `A -> a •` over `S -> • A` inserts
`S -> A •` with the finished item appended to the back-pointers. -/
theorem claim2_complete_spec_witness :
    ∃ y ∈ posGet [[exOld], [advanceItem exOld exFin]] 1,
      itemEq y (advanceItem exOld exFin) = true :=
  (claim2_complete_spec [[exOld], []] 1 exFin []
      [[exOld], [advanceItem exOld exFin]] (by decide) rfl).1
    exOld (List.mem_singleton_self _) rfl

/-- C3 counterexample: `ItemSet.append` performs the insertion (here into an
empty collection) yet returns `None`, not a boolean saying whether the
insertion happened. -/
theorem claim3_counterexample :
    (ItemSet.appendCall [] exItA).1 = [exItA]
    ∧ (ItemSet.appendCall [] exItA).2 = none
    ∧ (ItemSet.appendCall [] exItA).2 ≠ some true :=
  ⟨rfl, rfl, by simp [ItemSet.appendCall]⟩

/-- C3 as amended: `append` inserts the item only if no existing entry of
the collection has the same `(rule, origin, dot)` — back-pointers are
excluded from item equality, so a later item with the same key is discarded
and the first-discovered item's back-pointers are retained — but the call
returns `None` (no insertion flag). -/
theorem claim3_append_dedup (s : List EarleyItem) (r : Rule) (st d : Nat)
    (p1 p2 : List EarleyItem) :
    (ItemSet.appendCall s (EarleyItem.mk r st d p1)).2 = none
    ∧ ((∃ y ∈ s, itemEq y (EarleyItem.mk r st d p1) = true) →
        (ItemSet.appendCall s (EarleyItem.mk r st d p1)).1 = s)
    ∧ ((¬ ∃ y ∈ s, itemEq y (EarleyItem.mk r st d p1) = true) →
        (ItemSet.appendCall s (EarleyItem.mk r st d p1)).1 =
          s ++ [EarleyItem.mk r st d p1])
    ∧ itemEq (EarleyItem.mk r st d p1) (EarleyItem.mk r st d p2) = true := by
  refine ⟨rfl, ?_, ?_, ?_⟩
  · intro h
    rcases h with ⟨y, hy, he⟩
    simp only [ItemSet.appendCall, ItemSet.append]
    rw [if_pos (List.any_eq_true.mpr ⟨y, hy, he⟩)]
  · intro h
    simp only [ItemSet.appendCall, ItemSet.append]
    rw [if_neg]
    intro hany
    rcases List.any_eq_true.mp hany with ⟨y, hy, he⟩
    exact h ⟨y, hy, he⟩
  · simp [itemEq]

/-- Witness for C3 (amended): inserting an item whose key is already present
but whose back-pointers differ leaves the collection unchanged (the
first-discovered back-pointers win) and returns `None`. -/
theorem claim3_append_dedup_witness :
    (ItemSet.appendCall [exItA] (EarleyItem.mk exRule 0 0 [exFin])).2 = none
    ∧ (ItemSet.appendCall [exItA] (EarleyItem.mk exRule 0 0 [exFin])).1 = [exItA] := by
  have h := claim3_append_dedup [exItA] exRule 0 0 [exFin] []
  exact ⟨h.1, h.2.1 ⟨exItA, List.mem_singleton_self _, by decide⟩⟩

/-- C4 counterexample: `Grammar` construction performs no validation.  A
grammar whose start symbol `S` has no rules is constructed without error;
the failure surfaces only when `earley` is invoked (a `KeyError` at chart
initialization), and a referenced non-terminal with no rules (`T` below)
raises its `KeyError` inside `predict`, in the middle of a parse. -/
theorem claim4_counterexample :
    (mkGrammar [("a", ["x"])] "S").rules = [("a", [⟨0, "a", ["x"]⟩])]
    ∧ earley (mkGrammar [("a", ["x"])] "S") ["x"] ["x"] = .error (PyErr.keyError "S")
    ∧ earley (mkGrammar [("S", ["T"])] "S") [] ["z"] = .error (PyErr.keyError "T") :=
  ⟨rfl, rfl, rfl⟩

/-- C4 as amended: grammar construction never fails and performs no
validation; when the grammar has no rules for the start symbol, the
`KeyError` is raised at parse time, when `earley` first looks the start
symbol up to build the initial chart. -/
theorem claim4_deferred_start_error (raw : List (String × List String))
    (start : String) (t w : List String)
    (hmiss : (mkGrammar raw start).lookup start = none) :
    earley (mkGrammar raw start) t w = .error (PyErr.keyError start) := by
  have hmiss' : (mkGrammar raw start).lookup (mkGrammar raw start).start_rule = none :=
    hmiss
  unfold earley
  rw [hmiss']
  rfl

/-- Witness for C4 (amended) at a grammar with no rules for its start
symbol. -/
theorem claim4_deferred_start_error_witness :
    earley (mkGrammar [("a", ["x"])] "S") [] [] = .error (PyErr.keyError "S") :=
  claim4_deferred_start_error [("a", ["x"])] "S" [] [] rfl

/-- C5: after the `N` input positions are processed, the driver performs one
completion-only sweep over the final position (`finalLoopF`, which `earley`
invokes as its last phase with this very step budget).  The sweep (a) leaves
every other position untouched and only ever appends to the final one — no
scan output (which would land at position `N + 1`) and no predicted items
are produced, as every added item is an advanced copy of an existing item
(in particular no added item has `dot = 0`); and (b) runs to exhaustion:
every finished item of the resulting final collection — including items the
sweep itself added — has been completed, observable for every finished item
whose origin lies strictly below the final position. -/
theorem claim5_final_sweep (g : Grammar) (n : Nat) (t : List String)
    (chart : Chart) (hinv : ChartInv g n chart) :
    ∃ chart', finalLoopF t n (chartCap g n) chart 0 = .ok chart'
      ∧ (∀ j, j ≠ n → posGet chart' j = posGet chart j)
      ∧ posGet chart n <+: posGet chart' n
      ∧ (∀ y ∈ posGet chart' n, y ∈ posGet chart n ∨ sweepAddition t chart' n y)
      ∧ (∀ y ∈ posGet chart' n, y.dot = 0 → y ∈ posGet chart n)
      ∧ (∀ x ∈ posGet chart' n, completedAt t chart' n x) := by
  rcases finalLoopF_props (chartCap g n) chart 0 hinv
      (by unfold chartCap; omega) (fun idx hidx => by omega) with
    ⟨chart', hrun, hinv', hne', hpre', hsnd', hdone'⟩
  refine ⟨chart', hrun, hne', hpre', hsnd', ?_, hdone'⟩
  intro y hy hdot0
  rcases hsnd' y hy with h | ⟨old, fin, -, -, -, -, hadv⟩
  · exact h
  · exfalso
    rw [hadv] at hdot0
    simp [advanceItem] at hdot0

/-- Witness for C5: sweeping `exChart5` completes the finished `A -> a •`
item, and afterwards every finished item of the final position has been
completed. -/
theorem claim5_final_sweep_witness :
    ∃ chart', finalLoopF ["a"] 1 (chartCap exG5 1) exChart5 0 = .ok chart'
      ∧ ∀ x ∈ posGet chart' 1, completedAt ["a"] chart' 1 x := by
  rcases claim5_final_sweep exG5 1 ["a"] exChart5 (by decide) with
    ⟨chart', hrun, -, -, -, -, hdone⟩
  exact ⟨chart', hrun, hdone⟩

/-- C6: the derivation extractor returns the concatenation of the
extractions of the item's back-pointers in left-to-right order followed by
the item's own rule (bottom-up post-order), and it is pure: two calls on
the same item yield identical output. -/
theorem claim6_to_lr (item : EarleyItem) :
    to_lr item = (item.prev.map to_lr).flatten ++ [item.rule]
    ∧ (∀ out1 out2 : List Rule, to_lr item = out1 → to_lr item = out2 → out1 = out2) := by
  constructor
  · cases item with
    | mk r s d p =>
        rw [to_lr]
        simp [List.attach_map_coe]
  · intro out1 out2 h1 h2
    rw [← h1, ← h2]

/-- Witness for C6 at a back-pointer-free item. -/
theorem claim6_to_lr_witness :
    to_lr exItA = [exRule] ∧ to_lr exItA = to_lr exItA := by
  refine ⟨?_, (claim6_to_lr exItA).2 (to_lr exItA) (to_lr exItA) rfl rfl ▸ rfl⟩
  have h := (claim6_to_lr exItA).1
  simpa [exItA] using h

/-- C7: the chart consists of exactly `len(w) + 1` position collections, and
chart filling is monotone: every worklist step of the main loop and of the
final sweep preserves the chart's length and only ever extends each
position's collection (items are never removed or mutated). -/
theorem claim7_chart_shape :
    (∀ (g : Grammar) (t : List String) (word : String) (i : Nat) (chart : Chart)
        (item : EarleyItem) (chart' : Chart), i < chart.length →
        stepItem g t word i chart item = .ok chart' →
        chart'.length = chart.length ∧ ∀ j, posGet chart j <+: posGet chart' j)
    ∧ (∀ (t : List String) (last : Nat) (chart : Chart) (item : EarleyItem)
        (chart' : Chart), last < chart.length →
        finalStep t last chart item = .ok chart' →
        chart'.length = chart.length ∧ ∀ j, posGet chart j <+: posGet chart' j)
    ∧ (∀ (raw : List (String × List String)) (start : String) (t w : List String)
        (chart : Chart), earley (mkGrammar raw start) t w = .ok chart →
        chart.length = w.length + 1) :=
  ⟨fun _ _ _ _ _ _ _ hi hok => stepItem_props hi hok,
   fun _ _ _ _ _ hl hok => finalStep_props hl hok,
   fun _ _ _ _ _ hok => (earley_ok_inv hok).1.1⟩

/-- Witness for C7: a concrete scan step only appends to position 1 and
preserves the chart length, and a concrete `earley` run yields a chart of
length `len(w) + 1`. -/
theorem claim7_chart_shape_witness :
    (posGet [[exItA], []] 1 <+: posGet [[exItA], [exItB]] 1
      ∧ ([[exItA], [exItB]] : Chart).length = ([[exItA], []] : Chart).length)
    ∧ ([[exItA], [exItB]] : Chart).length = 1 + 1 := by
  have h := claim7_chart_shape.1 (mkGrammar [("a", ["b"])] "a") ["b"] "b" 0
    [[exItA], []] exItA [[exItA], [exItB]] (by decide) rfl
  have h3 := claim7_chart_shape.2.2 [("a", ["b"])] "a" ["b"] ["b"]
    [[exItA], [exItB]] rfl
  exact ⟨⟨h.2 1, h.1⟩, h3⟩

/-- C8: the parse pipeline (chart construction, acceptance check, `to_lr`
extraction) is deterministic — two runs on the same grammar, terminal set
and input return the same result, including for ambiguous grammars; the
embedding is a pure function of its inputs, with no nondeterministic
source, so the tie-break among derivations is fixed by rule-declaration
order and discovery order alone. -/
theorem claim8_parse_deterministic (raw : List (String × List String))
    (start : String) (t w : List String)
    (r1 r2 : Except PyErr (Option (List Rule)))
    (h1 : parse raw start t w = r1) (h2 : parse raw start t w = r2) : r1 = r2 := by
  rw [← h1, ← h2]

/-- Witness for C8: two evaluations of the same concrete parse call agree. -/
theorem claim8_parse_deterministic_witness :
    (Except.error (PyErr.keyError "S") : Except PyErr (Option (List Rule))) =
      Except.error (PyErr.keyError "S") :=
  claim8_parse_deterministic [("a", ["x"])] "S" [] [] _ _ rfl rfl

/-- C9: every item of chart position `j` of a completed `earley` run
satisfies `start ≤ j` and `dot ≤ len(rule.rhs)` — and since positions only
ever grow (C7), every item ever inserted during chart filling is still in
the final chart, so the bound covers all inserted items. -/
theorem claim9_item_bounds (raw : List (String × List String)) (start : String)
    (t w : List String) (chart : Chart)
    (hok : earley (mkGrammar raw start) t w = .ok chart) :
    ∀ j, ∀ it ∈ posGet chart j, it.start ≤ j ∧ it.dot ≤ it.rule.rhs.length := by
  intro j it hit
  by_cases hj : j < chart.length
  · have h := ((earley_ok_inv hok).1.2 j hj).1 it hit
    exact ⟨h.2.1, h.2.2⟩
  · rw [posGet_eq_nil_of_le (by omega)] at hit
    cases hit

/-- Witness for C9 at the scanned item of a concrete run. -/
theorem claim9_item_bounds_witness :
    exItB.start ≤ 1 ∧ exItB.dot ≤ exItB.rule.rhs.length :=
  claim9_item_bounds [("a", ["b"])] "a" ["b"] ["b"] [[exItA], [exItB]] rfl
    1 exItB (List.mem_singleton_self _)

/-- C10: chart indexing stays in bounds for every run: `scan` only ever
targets `i + 1 ≤ len(sentence)`, `complete` only reads `item.start`, which
never exceeds the current position, and the final sweep never scans — so
`earley` never raises an `IndexError` (its only other failure mode is the
`KeyError` of an unknown non-terminal). -/
theorem claim10_no_index_error (raw : List (String × List String))
    (start : String) (t w : List String) :
    earley (mkGrammar raw start) t w ≠ .error PyErr.indexError := by
  intro h
  rcases earley_run raw start t w with ⟨chart, hok, -, -⟩ | ⟨sy, herr⟩
  · rw [hok] at h
    cases h
  · rw [herr] at h
    exact PyErr.noConfusion (Except.error.inj h)

/-- Witness for C10 at a concrete run. -/
theorem claim10_no_index_error_witness :
    earley (mkGrammar [("a", ["b"])] "a") ["b"] ["b"] ≠ .error PyErr.indexError :=
  claim10_no_index_error [("a", ["b"])] "a" ["b"] ["b"]

/-! ### The step budgets are never the binding constraint

The source loops have no budget; they terminate because `ItemSet.append`
de-duplicates over the finite key space (worklists) and because each lazily
examined entry costs weight (the aliased `complete` pipeline).  The next two
lemmas show the budgets the embedding passes are already past the fixpoint:
raising them changes nothing, so the fueled loops compute exactly the
source's fixpoint. -/

theorem completeSelfF_fuel_stable (lhs : String) (fin : EarleyItem) (t : List String) :
    ∀ (fuel : Nat) (s : List EarleyItem) (c : Nat), suffWeight s c < fuel →
    completeSelfF lhs fin t (fuel + 1) s c = completeSelfF lhs fin t fuel s c := by
  intro fuel
  induction fuel with
  | zero =>
      intro s c hfuel
      omega
  | succ fuel ih =>
      intro s c hfuel
      rw [completeSelfF, completeSelfF]
      cases hget : s.get? c with
      | none => rfl
      | some old =>
          dsimp only
          exact ih _ (c + 1) (by
            have := @selfStep_weight lhs fin t s c old hget
            omega)

theorem posLoopF_fuel_stable {g : Grammar} {n : Nat} {t : List String}
    {word : String} {i : Nat} :
    ∀ (fuel : Nat) (chart : Chart) (c : Nat), ChartInv g n chart → i ≤ n →
    (keyUniverse g n).length < fuel + c →
    posLoopF g t word i (fuel + 1) chart c = posLoopF g t word i fuel chart c := by
  intro fuel
  induction fuel with
  | zero =>
      intro chart c hinv hi hcap
      rw [posLoopF, posLoopF]
      have hlen : (posGet chart i).length ≤ (keyUniverse g n).length := by
        by_cases hil : i < chart.length
        · exact posOk_length_le hi (hinv.2 i hil)
        · rw [posGet_eq_nil_of_le (by omega)]
          simp
      rw [show chart.getD i [] = posGet chart i from rfl,
        List.get?_eq_none.mpr (by omega : (posGet chart i).length ≤ c)]
  | succ fuel ih =>
      intro chart c hinv hi hcap
      rw [posLoopF, posLoopF]
      cases hget : (chart.getD i []).get? c with
      | none => rfl
      | some item =>
          dsimp only
          cases hstep : stepItem g t word i chart item with
          | error e => rfl
          | ok chart2 =>
              dsimp only
              have hil : i < chart.length := by
                by_contra hge
                rw [show chart.getD i [] = posGet chart i from rfl,
                  posGet_eq_nil_of_le (by omega)] at hget
                cases hget
              exact ih chart2 (c + 1)
                (stepItem_chartInv hinv hil (List.get?_mem hget) hstep) hi (by omega)
